import Mathlib

/-!
A shallow embedding, in Lean 4, of the core of PyWindowsPatchManager:
the program inventory (`program_detector.py`), the update resolver
(`update_checker.py` together with the exclusion logic of
`config_manager.py`), and the update installer (`update_installer.py`).

External process invocations (`subprocess.run`) are modelled by explicit
outcome values (`ProcOutcome`) supplied through environment records, so
each embedded operation is a pure function of the program state and the
outcomes the external tools would produce.  Wall-clock timestamps
(`start_time` / `end_time` on `UpdateResult`) and file I/O (the backup
writer, logging) are side effects that never influence the values the
embedded claims are about and are omitted.
-/

/-- Outcome of one `subprocess.run` call: the executable may be missing
(`FileNotFoundError`), the call may exceed its timeout
(`subprocess.TimeoutExpired`), some other exception may be raised, or the
process completes with a return code, stdout and stderr. -/
inductive ProcOutcome where
  | notFound
  | timedOut
  | exn (msg : String)
  | done (returncode : Int) (stdout : String) (stderr : String)
deriving DecidableEq, Repr

/-- The `Program` dataclass of `program_detector.py`, field for field. -/
structure Program where
  name : String
  version : String
  publisher : String := ""
  install_location : String := ""
  update_available : Bool := false
  available_version : String := ""
  source : String := ""
  package_id : String := ""
deriving DecidableEq, Repr

/-- `sub in s` for Python strings: `sub` occurs contiguously in `s`. -/
def strContains (s sub : String) : Bool :=
  go sub.toList s.toList
where
  go (needle hay : List Char) : Bool :=
    if needle.isPrefixOf hay then true
    else
      match hay with
      | [] => false
      | _ :: t => go needle t

/-- The priority map of `_deduplicate_programs`:
`priority = {"winget": 1, "chocolatey": 2, "registry": 3}` with
`priority.get(p.source, 4)` for anything else. -/
def priorityOf (source : String) : Nat :=
  if source = "winget" then 1
  else if source = "chocolatey" then 2
  else if source = "registry" then 3
  else 4

/-- Python `str.lower()` (ASCII case mapping, character by character). -/
def pyLower (s : String) : String :=
  String.mk (s.toList.map Char.toLower)

/-- Python `str.strip()`: remove leading and trailing whitespace. -/
def pyStrip (s : String) : String :=
  String.mk (((s.toList.dropWhile Char.isWhitespace).reverse.dropWhile Char.isWhitespace).reverse)

/-- The identity key of `_deduplicate_programs`:
`program.name.lower().strip()`. -/
def keyOf (p : Program) : String :=
  pyStrip (pyLower p.name)

/-- The body of the `for program in self.programs:` loop of
`_deduplicate_programs`, processing `pending` with the accumulated
`seen` dictionary (association list, most recent binding first) and
`unique` list.  On a fresh key the program is recorded; on a collision
the program replaces the previously kept record exactly when its source
priority number is strictly smaller, in which case the old record is
removed from `unique` by value equality (`p != existing`). -/
def dedupGo : List Program → List (String × Program) → List Program → List Program
  | [], _, unique => unique
  | p :: pending, seen, unique =>
    let k := keyOf p
    match List.lookup k seen with
    | none => dedupGo pending ((k, p) :: seen) (unique ++ [p])
    | some existing =>
      if priorityOf p.source < priorityOf existing.source then
        dedupGo pending ((k, p) :: seen) ((unique.filter (fun q => q ≠ existing)) ++ [p])
      else
        dedupGo pending seen unique

/-- `_deduplicate_programs` of `program_detector.py`: first
`self.programs.sort(key=lambda p: priority.get(p.source, 4))` (a stable
ascending sort on the priority number — insertion sort is stable for
this total preorder, so it matches Python's stable `list.sort`), then
the deduplication loop. -/
def deduplicate_programs (programs : List Program) : List Program :=
  dedupGo (programs.insertionSort (fun a b => priorityOf a.source ≤ priorityOf b.source)) [] []

/-- The invariant tying the `seen` dictionary of `_deduplicate_programs`
to its `unique_programs` list: for every key, the sublist of `unique`
whose elements carry that key is exactly the record the dictionary holds
for it (empty when the key is absent). -/
def DedupInv (seen : List (String × Program)) (unique : List Program) : Prop :=
  ∀ k, unique.filter (fun q => keyOf q == k) = (List.lookup k seen).toList

theorem dedupInv_nil : DedupInv [] [] := fun _ => rfl

theorem dedupInv_insert {seen : List (String × Program)} {unique : List Program}
    (p : Program) (hinv : DedupInv seen unique)
    (hnone : List.lookup (keyOf p) seen = none) :
    DedupInv ((keyOf p, p) :: seen) (unique ++ [p]) := by
  intro k
  rw [List.filter_append]
  by_cases hk : k = keyOf p
  · have h1 : unique.filter (fun q => keyOf q == k) = [] := by
      rw [hinv k, hk, hnone]; rfl
    rw [h1]
    simp [List.filter, List.lookup, hk.symm]
  · have hk' : (k == keyOf p) = false := by simp [hk]
    have hne : (keyOf p == k) = false := by
      simp
      intro h
      exact hk h.symm
    have hfp : List.filter (fun q => keyOf q == k) [p] = [] := by
      simp [List.filter, hne]
    rw [hfp, List.append_nil, hinv k]
    simp [List.lookup, hk']

theorem dedupInv_replace {seen : List (String × Program)} {unique : List Program}
    (p ex : Program) (hinv : DedupInv seen unique)
    (hsome : List.lookup (keyOf p) seen = some ex) :
    DedupInv ((keyOf p, p) :: seen) ((unique.filter (fun q => q ≠ ex)) ++ [p]) := by
  have hexkey : keyOf ex = keyOf p := by
    have h1 : unique.filter (fun q => keyOf q == keyOf p) = [ex] := by
      rw [hinv (keyOf p), hsome]; rfl
    have h2 : ex ∈ unique.filter (fun q => keyOf q == keyOf p) := by
      rw [h1]; exact List.mem_singleton.mpr rfl
    have h3 := (List.mem_filter.mp h2).2
    simpa using h3
  intro k
  rw [List.filter_append]
  by_cases hk : k = keyOf p
  · have h1 : unique.filter (fun q => keyOf q == keyOf p) = [ex] := by
      rw [hinv (keyOf p), hsome]; rfl
    have h2 : (unique.filter (fun q => q ≠ ex)).filter (fun q => keyOf q == k) = [] := by
      rw [List.filter_eq_nil_iff]
      intro a ha hak
      have ha1 := List.mem_filter.mp ha
      have hne : a ≠ ex := by simpa using ha1.2
      have hkey : keyOf a = k := by simpa using hak
      have hmem : a ∈ unique.filter (fun q => keyOf q == keyOf p) := by
        rw [List.mem_filter]
        exact ⟨ha1.1, by simp [hkey, hk]⟩
      rw [h1] at hmem
      exact hne (List.mem_singleton.mp hmem)
    rw [h2]
    simp [List.filter, List.lookup, hk.symm]
  · have hk' : (k == keyOf p) = false := by simp [hk]
    have hne2 : (keyOf p == k) = false := by
      simp
      intro h
      exact hk h.symm
    have hfp : List.filter (fun q => keyOf q == k) [p] = [] := by
      simp [List.filter, hne2]
    rw [hfp, List.append_nil]
    have hcomm : (unique.filter (fun q => q ≠ ex)).filter (fun q => keyOf q == k)
        = (unique.filter (fun q => keyOf q == k)).filter (fun q => q ≠ ex) :=
      List.filter_comm _ _ _
    have hsame : (unique.filter (fun q => keyOf q == k)).filter (fun q => q ≠ ex)
        = unique.filter (fun q => keyOf q == k) := by
      rw [List.filter_eq_self]
      intro a ha
      have hak : keyOf a = k := by
        have := (List.mem_filter.mp ha).2
        simpa using this
      have : a ≠ ex := by
        intro he
        rw [he] at hak
        rw [hexkey] at hak
        exact hk hak.symm
      simpa using this
    rw [hcomm, hsame, hinv k]
    simp [List.lookup, hk']

theorem dedupGo_atMostOne (pending : List Program) :
    ∀ (seen : List (String × Program)) (unique : List Program),
    DedupInv seen unique →
    ∀ k, ((dedupGo pending seen unique).filter (fun q => keyOf q == k)).length ≤ 1 := by
  induction pending with
  | nil =>
    intro seen unique hinv k
    rw [dedupGo, hinv k]
    cases List.lookup k seen <;> simp
  | cons p pending ih =>
    intro seen unique hinv k
    rw [dedupGo]
    cases hcase : List.lookup (keyOf p) seen with
    | none =>
      exact ih _ _ (dedupInv_insert p hinv hcase) k
    | some ex =>
      by_cases hlt : priorityOf p.source < priorityOf ex.source
      · simp only [hlt, if_true]
        exact ih _ _ (dedupInv_replace p ex hinv hcase) k
      · simp only [hlt, if_false]
        exact ih _ _ hinv k

theorem dedupGo_min (pending : List Program) :
    ∀ (seen : List (String × Program)) (unique : List Program),
    DedupInv seen unique →
    ∀ q ∈ dedupGo pending seen unique,
      (q ∈ pending ∨ List.lookup (keyOf q) seen = some q) ∧
      (∀ p ∈ pending, keyOf p = keyOf q → priorityOf q.source ≤ priorityOf p.source) ∧
      (∀ e, List.lookup (keyOf q) seen = some e → priorityOf q.source ≤ priorityOf e.source) := by
  induction pending with
  | nil =>
    intro seen unique hinv q hq
    rw [dedupGo] at hq
    have hqf : q ∈ unique.filter (fun r => keyOf r == keyOf q) := by
      rw [List.mem_filter]
      exact ⟨hq, by simp⟩
    rw [hinv (keyOf q)] at hqf
    have hlu : List.lookup (keyOf q) seen = some q := by
      cases hc : List.lookup (keyOf q) seen with
      | none => rw [hc] at hqf; simp at hqf
      | some e =>
        rw [hc] at hqf
        simp at hqf
        rw [hqf]
    refine ⟨Or.inr hlu, by simp, ?_⟩
    intro e he
    rw [hlu] at he
    cases he
    exact Nat.le_refl _
  | cons p pending ih =>
    intro seen unique hinv q hq
    rw [dedupGo] at hq
    cases hcase : List.lookup (keyOf p) seen with
    | none =>
      simp only [hcase] at hq
      have ihq := ih _ _ (dedupInv_insert p hinv hcase) q hq
      obtain ⟨h1, h2, h3⟩ := ihq
      by_cases hkq : keyOf q = keyOf p
      · have hbt : (keyOf q == keyOf p) = true := by simp [hkq]
        have hlu : List.lookup (keyOf q) ((keyOf p, p) :: seen) = some p := by
          simp [List.lookup, hbt]
        refine ⟨?_, ?_, ?_⟩
        · cases h1 with
          | inl h => exact Or.inl (List.mem_cons_of_mem p h)
          | inr h =>
            rw [hlu] at h
            cases h
            exact Or.inl (List.mem_cons_self _ _)
        · intro r hr hrk
          cases List.mem_cons.mp hr with
          | inl h => rw [h]; exact h3 p hlu
          | inr h => exact h2 r h hrk
        · intro e he
          rw [hkq, hcase] at he
          cases he
      · have hbf : (keyOf q == keyOf p) = false := by simp [hkq]
        have hlueq : List.lookup (keyOf q) ((keyOf p, p) :: seen) = List.lookup (keyOf q) seen := by
          simp [List.lookup, hbf]
        refine ⟨?_, ?_, ?_⟩
        · cases h1 with
          | inl h => exact Or.inl (List.mem_cons_of_mem p h)
          | inr h => exact Or.inr (hlueq ▸ h)
        · intro r hr hrk
          cases List.mem_cons.mp hr with
          | inl h =>
            rw [h] at hrk
            exact absurd hrk.symm hkq
          | inr h => exact h2 r h hrk
        · intro e he
          exact h3 e (hlueq ▸ he)
    | some ex =>
      simp only [hcase] at hq
      by_cases hlt : priorityOf p.source < priorityOf ex.source
      · rw [if_pos hlt] at hq
        have ihq := ih _ _ (dedupInv_replace p ex hinv hcase) q hq
        obtain ⟨h1, h2, h3⟩ := ihq
        by_cases hkq : keyOf q = keyOf p
        · have hbt : (keyOf q == keyOf p) = true := by simp [hkq]
          have hlu : List.lookup (keyOf q) ((keyOf p, p) :: seen) = some p := by
            simp [List.lookup, hbt]
          have hqp : priorityOf q.source ≤ priorityOf p.source := h3 p hlu
          refine ⟨?_, ?_, ?_⟩
          · cases h1 with
            | inl h => exact Or.inl (List.mem_cons_of_mem p h)
            | inr h =>
              rw [hlu] at h
              cases h
              exact Or.inl (List.mem_cons_self _ _)
          · intro r hr hrk
            cases List.mem_cons.mp hr with
            | inl h => rw [h]; exact hqp
            | inr h => exact h2 r h hrk
          · intro e he
            rw [hkq, hcase] at he
            cases he
            exact Nat.le_trans hqp (Nat.le_of_lt hlt)
        · have hbf : (keyOf q == keyOf p) = false := by simp [hkq]
          have hlueq : List.lookup (keyOf q) ((keyOf p, p) :: seen) = List.lookup (keyOf q) seen := by
            simp [List.lookup, hbf]
          refine ⟨?_, ?_, ?_⟩
          · cases h1 with
            | inl h => exact Or.inl (List.mem_cons_of_mem p h)
            | inr h => exact Or.inr (hlueq ▸ h)
          · intro r hr hrk
            cases List.mem_cons.mp hr with
            | inl h =>
              rw [h] at hrk
              exact absurd hrk.symm hkq
            | inr h => exact h2 r h hrk
          · intro e he
            exact h3 e (hlueq ▸ he)
      · rw [if_neg hlt] at hq
        have ihq := ih _ _ hinv q hq
        obtain ⟨h1, h2, h3⟩ := ihq
        refine ⟨?_, ?_, ?_⟩
        · cases h1 with
          | inl h => exact Or.inl (List.mem_cons_of_mem p h)
          | inr h => exact Or.inr h
        · intro r hr hrk
          cases List.mem_cons.mp hr with
          | inl h =>
            rw [h] at hrk
            have hqe : priorityOf q.source ≤ priorityOf ex.source := h3 ex (hrk ▸ hcase)
            rw [h]
            exact Nat.le_trans hqe (Nat.le_of_not_lt hlt)
          | inr h => exact h2 r h hrk
        · exact h3

/-- C1: for every input inventory, `_deduplicate_programs` keeps at most
one `Program` per identity key (name lowercased and whitespace-trimmed);
every surviving record is one of the input records, discarded rivals are
dropped whole rather than merged; and each survivor's source has the
minimal priority number (winget=1 < chocolatey=2 < registry=3 <
unknown=4) among all input records sharing its key. -/
theorem deduplicate_programs_spec (l : List Program) :
    (∀ k, ((deduplicate_programs l).filter (fun q => keyOf q == k)).length ≤ 1) ∧
    (∀ q ∈ deduplicate_programs l, q ∈ l ∧
      ∀ p ∈ l, keyOf p = keyOf q → priorityOf q.source ≤ priorityOf p.source) := by
  have hperm := List.perm_insertionSort (fun a b => priorityOf a.source ≤ priorityOf b.source) l
  constructor
  · intro k
    exact dedupGo_atMostOne _ [] [] dedupInv_nil k
  · intro q hq
    have h := dedupGo_min _ [] [] dedupInv_nil q hq
    obtain ⟨h1, h2, _⟩ := h
    have hqmem : q ∈ l := by
      cases h1 with
      | inl h => exact hperm.mem_iff.mp h
      | inr h => cases h
    refine ⟨hqmem, ?_⟩
    intro p hp hpk
    exact h2 p (hperm.mem_iff.mpr hp) hpk

/-- Sample records used to instantiate the deduplication theorems:
three views of the same program (identity key `"git"`) from the three
real sources. -/
def sampleWin : Program :=
  { name := "Git", version := "2.44.0", source := "winget", package_id := "Git.Git" }

def sampleReg : Program :=
  { name := " git ", version := "2.40.0", source := "registry", publisher := "The Git Development Community" }

def sampleChoco : Program :=
  { name := "GIT", version := "2.42.0", source := "chocolatey", package_id := "git" }

theorem deduplicate_programs_spec_witness :
    sampleWin ∈ deduplicate_programs [sampleReg, sampleChoco, sampleWin] ∧
    sampleWin ∈ ([sampleReg, sampleChoco, sampleWin] : List Program) ∧
    sampleReg ∈ ([sampleReg, sampleChoco, sampleWin] : List Program) ∧
    keyOf sampleReg = keyOf sampleWin ∧
    priorityOf sampleWin.source ≤ priorityOf sampleReg.source := by
  have hmem : sampleWin ∈ deduplicate_programs [sampleReg, sampleChoco, sampleWin] := by decide
  have h := (deduplicate_programs_spec [sampleReg, sampleChoco, sampleWin]).2 sampleWin hmem
  exact ⟨hmem, h.1, by decide, by decide, h.2 sampleReg (by decide) (by decide)⟩

/-- The configuration values `update_checker.py` and
`update_installer.py` read through `config_manager.get(...)`, as one
record: the exclusion lists, the per-source enable flags, and the
update-behavior settings. -/
structure Config where
  exclusions_programs : List String
  exclusions_publishers : List String
  exclusions_keywords : List String
  winget_enabled : Bool
  chocolatey_enabled : Bool
  custom_enabled : Bool
  update_all_at_once : Bool
  max_concurrent_updates : Nat
  create_backups : Bool
deriving Repr

/-- `_get_default_config` of `config_manager.py`, restricted to the keys
the embedded components read. -/
def default_config : Config where
  exclusions_programs := ["Windows Security", "Microsoft Edge WebView2", "Microsoft Visual C++ Redistributable"]
  exclusions_publishers := ["Microsoft Corporation"]
  exclusions_keywords := ["driver", "codec"]
  winget_enabled := true
  chocolatey_enabled := true
  custom_enabled := true
  update_all_at_once := false
  max_concurrent_updates := 3
  create_backups := true

/-- `ConfigManager.is_program_excluded`: match by exact lowercased name,
by exact lowercased publisher (when the publisher is nonempty), or by a
lowercased exclusion keyword occurring as a substring of the lowercased
name. -/
def is_program_excluded (cfg : Config) (program_name publisher : String) : Bool :=
  (cfg.exclusions_programs.map pyLower).contains (pyLower program_name)
  || (publisher != "" && (cfg.exclusions_publishers.map pyLower).contains (pyLower publisher))
  || cfg.exclusions_keywords.any (fun kw => strContains (pyLower program_name) (pyLower kw))

/-- Python `s.split('.')` (and in general splitting on one character,
keeping empty pieces). -/
def splitChar (c : Char) (s : String) : List String :=
  go s.toList []
where
  go : List Char → List Char → List String
    | [], acc => [String.mk acc.reverse]
    | x :: xs, acc =>
      if x = c then String.mk acc.reverse :: go xs [] else go xs (x :: acc)

def digitsToNat (cs : List Char) : Nat :=
  cs.foldl (fun n c => n * 10 + (c.toNat - 48)) 0

/-- `packaging.version.parse`, modelled on its domain of plain
dotted-numeric release strings (`\d+(\.\d+)*`), the only version forms
this code base compares: such a string parses to its list of numeric
components.  Any other string yields `none`, standing both for
`InvalidVersion` (which the callers catch) and for forms outside this
model. -/
def parseVersion (s : String) : Option (List Nat) :=
  let parts := splitChar '.' s
  if parts.all (fun par => (par != "") && par.toList.all Char.isDigit) then
    some (parts.map (fun par => digitsToNat par.toList))
  else none

/-- Strict `<` on parsed release versions, PEP 440 style: componentwise,
with the shorter list padded with zeros. -/
def verLt : List Nat → List Nat → Bool
  | [], ys => ys.any (fun y => 0 < y)
  | _ :: _, [] => false
  | x :: xs, y :: ys => if x < y then true else if y < x then false else verLt xs ys

/-- Python `s.split()[0]`: first whitespace-separated token, `none` when
the string has no token (where the source raises `IndexError`, caught by
its enclosing `except`). -/
def firstToken (s : String) : Option String :=
  let r := s.toList.dropWhile Char.isWhitespace
  if r.isEmpty then none
  else some (String.mk (r.takeWhile (fun ch => !ch.isWhitespace)))

/-- Leftmost-match search: try the anchored matcher at every start
position from the left, as `re.search` does. -/
def searchPat {α : Type} (m : List Char → Option α) : List Char → Option α
  | [] => m []
  | c :: t =>
    match m (c :: t) with
    | some g => some g
    | none => searchPat m t

/-- Anchored match for `\d+\.\d+\.\d+[\.\d]*` (all the quantifiers are
greedy; for this pattern greedy maximal munch needs no backtracking,
since a digit run can never absorb the following literal dot). Returns
the matched text and the rest. -/
def matchVer3 (cs : List Char) : Option (List Char × List Char) :=
  let (d1, r1) := cs.span Char.isDigit
  if d1.isEmpty then none else
  match r1 with
  | '.' :: r2 =>
    let (d2, r3) := r2.span Char.isDigit
    if d2.isEmpty then none else
    match r3 with
    | '.' :: r4 =>
      let (d3, r5) := r4.span Char.isDigit
      if d3.isEmpty then none else
      let (t, rest) := r5.span (fun ch => ch.isDigit || ch = '.')
      some (d1 ++ '.' :: (d2 ++ '.' :: (d3 ++ t)), rest)
    | _ => none
  | _ => none

/-- Anchored match for `\d+\.\d+[\.\d]*` (the Firefox / Notepad++
version shape). -/
def matchVer2 (cs : List Char) : Option (List Char × List Char) :=
  let (d1, r1) := cs.span Char.isDigit
  if d1.isEmpty then none else
  match r1 with
  | '.' :: r2 =>
    let (d2, r3) := r2.span Char.isDigit
    if d2.isEmpty then none else
    let (t, rest) := r3.span (fun ch => ch.isDigit || ch = '.')
    some (d1 ++ '.' :: (d2 ++ t), rest)
  | _ => none

/-- Anchored match for `\d+\.\d+\.\d+` with no trailing class (the VLC
version shape). -/
def matchVer3Exact (cs : List Char) : Option (List Char × List Char) :=
  let (d1, r1) := cs.span Char.isDigit
  if d1.isEmpty then none else
  match r1 with
  | '.' :: r2 =>
    let (d2, r3) := r2.span Char.isDigit
    if d2.isEmpty then none else
    match r3 with
    | '.' :: r4 =>
      let (d3, r5) := r4.span Char.isDigit
      if d3.isEmpty then none else
      some (d1 ++ '.' :: (d2 ++ '.' :: d3), r5)
    | _ => none
  | _ => none

/-- `re.search(r'(\d+\.\d+\.\d+[\.\d]*)', s)` of `_check_winget_updates`:
leftmost version-shaped substring, or `none`. -/
def extractVersion (s : String) : Option String :=
  (searchPat (fun cs => (matchVer3 cs).map Prod.fst) s.toList).map String.mk

/-- Anchored match for a literal, then `\s+`, then a capturing version
group — the shape of all four custom-checker regexes
(`Lit\s+(\d+\.\d+...)`). Returns the captured group. -/
def litWsVer (lit : List Char) (vm : List Char → Option (List Char × List Char))
    (cs : List Char) : Option (List Char) :=
  if lit.isPrefixOf cs then
    let r := cs.drop lit.length
    let (ws, r2) := r.span Char.isWhitespace
    if ws.isEmpty then none else (vm r2).map Prod.fst
  else none

def searchLitWsVer (lit : String) (vm : List Char → Option (List Char × List Char))
    (s : String) : Option String :=
  (searchPat (litWsVer lit.toList vm) s.toList).map String.mk

/-- `re.search(rf'{package_id} v(\d+\.\d+\.\d+[\.\d]*)', s)` of
`_check_chocolatey_updates`: the package id (treated literally; the
source interpolates it into the regex unescaped, which coincides with
the literal reading whenever the id has no regex metacharacters),
a space, a literal `v`, then the captured version. -/
def chocoExtract (package_id : String) (s : String) : Option String :=
  let lit := package_id.toList ++ (" v").toList
  (searchPat (fun cs =>
    if lit.isPrefixOf cs then (matchVer3 (cs.drop lit.length)).map Prod.fst else none) s.toList).map String.mk

/-- The external calls `update_checker.py` can make, as outcome
functions: `winget upgrade --id <pid>`, `choco upgrade <pid> --noop`,
and `winget search <query> --exact`. -/
structure CheckEnv where
  winget_upgrade : String → ProcOutcome
  choco_upgrade : String → ProcOutcome
  winget_search : String → ProcOutcome

/-- `_check_winget_updates`: no-op for an empty package id; otherwise
run `winget upgrade` and, when the (lowercased) output mentions
availability, mark the update, taking the leftmost version-shaped
substring of the output or `"Unknown"` when there is none.  The return
code is not consulted; timeouts and exceptions (including a missing
executable) are swallowed, leaving the program unchanged. -/
def check_winget_updates (env : CheckEnv) (p : Program) : Program :=
  if p.package_id = "" then p
  else
    match env.winget_upgrade p.package_id with
    | .done _ out _ =>
      if strContains (pyLower out) ("upgrade available") || strContains (pyLower out) ("available") then
        match extractVersion out with
        | some v => { p with available_version := v, update_available := true }
        | none => { p with update_available := true, available_version := "Unknown" }
      else p
    | _ => p

/-- `_check_chocolatey_updates`: the chocolatey analogue of
`check_winget_updates`, keyed on the `would like to upgrade` phrase. -/
def check_chocolatey_updates (env : CheckEnv) (p : Program) : Program :=
  if p.package_id = "" then p
  else
    match env.choco_upgrade p.package_id with
    | .done _ out _ =>
      if strContains (pyLower out) ("would like to upgrade") then
        match chocoExtract p.package_id out with
        | some v => { p with available_version := v, update_available := true }
        | none => { p with update_available := true, available_version := "Unknown" }
      else p
    | _ => p

/-- The common body of the four custom checkers
(`_check_chrome_update`, `_check_firefox_update`, `_check_vlc_update`,
`_check_notepadpp_update`): `winget search <query> --exact`; on return
code 0, extract the version following the query literal; compare with
`version.parse` on the first token of the current version, and mark the
update only on a strict increase.  Every failure (parse errors
included) is swallowed, leaving the program unchanged. -/
def customCheck (env : CheckEnv) (query : String)
    (vm : List Char → Option (List Char × List Char)) (p : Program) : Program :=
  match env.winget_search query with
  | .done rc out _ =>
    if rc == 0 then
      match searchLitWsVer query vm out with
      | some av =>
        match firstToken p.version with
        | some tok =>
          match parseVersion tok, parseVersion av with
          | some cur, some avail =>
            if verLt cur avail then { p with available_version := av, update_available := true }
            else p
          | _, _ => p
        | none => p
      | none => p
    else p
  | _ => p

def check_chrome_update (env : CheckEnv) (p : Program) : Program :=
  customCheck env ("Google.Chrome") matchVer3 p

def check_firefox_update (env : CheckEnv) (p : Program) : Program :=
  customCheck env ("Mozilla.Firefox") matchVer2 p

def check_vlc_update (env : CheckEnv) (p : Program) : Program :=
  customCheck env ("VideoLAN.VLC") matchVer3Exact p

def check_notepadpp_update (env : CheckEnv) (p : Program) : Program :=
  customCheck env ("Notepad++.Notepad++") matchVer2 p

/-- `_check_custom_updates`: the fixed name-fragment dispatch table, in
its insertion order; the first fragment contained in the lowercased
program name selects the checker, otherwise nothing happens. -/
def check_custom_updates (env : CheckEnv) (p : Program) : Program :=
  let checkers : List (String × (CheckEnv → Program → Program)) :=
    [("chrome", check_chrome_update), ("firefox", check_firefox_update),
     ("vlc", check_vlc_update), ("notepad++", check_notepadpp_update)]
  match checkers.find? (fun entry => strContains (pyLower p.name) entry.1) with
  | some entry => entry.2 env p
  | none => p

/-- `UpdateChecker.check_for_updates`: skip programs matching the
exclusion filter (they are *not* appended to the returned list), and
dispatch the rest by source, appending the (possibly updated) record. -/
def check_for_updates (cfg : Config) (env : CheckEnv) (programs : List Program) : List Program :=
  programs.foldl (fun acc p =>
    if is_program_excluded cfg p.name p.publisher then acc
    else acc ++ [
      if p.source = "winget" && cfg.winget_enabled then check_winget_updates env p
      else if p.source = "chocolatey" && cfg.chocolatey_enabled then check_chocolatey_updates env p
      else if cfg.custom_enabled then check_custom_updates env p
      else p]) []

/-- A check environment in which every external tool is missing. -/
def nullCheckEnv : CheckEnv where
  winget_upgrade := fun _ => .notFound
  choco_upgrade := fun _ => .notFound
  winget_search := fun _ => .notFound

/-- A program whose name is on the default exclusion list. -/
def webviewProg : Program :=
  { name := "Microsoft Edge WebView2", version := "120.0", source := "winget",
    package_id := "Microsoft.EdgeWebView2Runtime" }

/-- C3 (failing input): a program matched by the Exclusion Filter is
*dropped* from the list `check_for_updates` returns — the `continue`
skips the append — so the returned list is not the same logical set as
the input.  `PatchManager.update_program` even indexes `[0]` into this
return value after passing a single program in, which raises
`IndexError` for an excluded program. -/
theorem check_for_updates_drops_excluded :
    check_for_updates default_config nullCheckEnv [webviewProg] = [] ∧
    webviewProg ∉ check_for_updates default_config nullCheckEnv [webviewProg] := by
  constructor
  · decide
  · decide

/-- Program and tool output for the winget equal-version scenario: the
tool output mentions `available` and its leftmost version-shaped
substring equals the installed version. -/
def equalVerProg : Program :=
  { name := "FooApp", version := "1.2.0", source := "winget", package_id := "Foo.App" }

def equalVerEnv : CheckEnv :=
  { nullCheckEnv with
    winget_upgrade := fun _ => .done 2 ("FooApp Foo.App 1.2.0 1.2.0 winget\n1 upgrade available") "" }

/-- C4 (counterexample): `_check_winget_updates` performs no version
comparison at all — with installed version `"1.2.0"` and a tool output
whose extracted candidate is the equal `"1.2.0"`, it still sets
`update_available := true`, contradicting the claim that an update
check sets it only when the candidate strictly exceeds the current
version. -/
theorem check_winget_equal_version_cex :
    equalVerProg.version = "1.2.0" ∧
    equalVerProg.update_available = false ∧
    extractVersion ("FooApp Foo.App 1.2.0 1.2.0 winget\n1 upgrade available") = some "1.2.0" ∧
    (check_winget_updates equalVerEnv equalVerProg).update_available = true ∧
    (check_winget_updates equalVerEnv equalVerProg).available_version = "1.2.0" := by
  refine ⟨rfl, rfl, by decide, by decide, by decide⟩

/-- C4 (amended): the strict semantic-version comparison lives in the
custom name-based checkers.  For `_check_chrome_update`, whenever the
search succeeds, a candidate version is extracted, and both current and
candidate parse, the program is marked updated with that candidate
exactly when the candidate strictly exceeds the current version;
in particular, starting from `update_available = false`, it becomes
true iff the candidate strictly exceeds. -/
theorem check_chrome_update_semver (env : CheckEnv) (p : Program)
    (rc : Int) (out err av tok : String) (cur avail : List Nat)
    (henv : env.winget_search ("Google.Chrome") = .done rc out err)
    (hrc : rc = 0)
    (hav : searchLitWsVer ("Google.Chrome") matchVer3 out = some av)
    (htok : firstToken p.version = some tok)
    (hcur : parseVersion tok = some cur)
    (havail : parseVersion av = some avail) :
    check_chrome_update env p =
      (if verLt cur avail then { p with available_version := av, update_available := true } else p) ∧
    (p.update_available = false →
      ((check_chrome_update env p).update_available = true ↔ verLt cur avail = true)) := by
  have h1 : check_chrome_update env p =
      (if verLt cur avail then { p with available_version := av, update_available := true } else p) := by
    unfold check_chrome_update customCheck
    rw [henv]
    subst hrc
    simp [hav, htok, hcur, havail]
  refine ⟨h1, ?_⟩
  intro hupd
  rw [h1]
  by_cases hlt : verLt cur avail = true
  · simp [hlt]
  · simp [hlt, hupd]

def chromeEnv : CheckEnv :=
  { nullCheckEnv with winget_search := fun _ => .done 0 ("Google.Chrome 1.3.0") "" }

def chromeProg : Program :=
  { name := "Google Chrome", version := "1.2.0", source := "custom" }

theorem check_chrome_update_semver_witness :
    (check_chrome_update chromeEnv chromeProg).update_available = true ∧
    (check_chrome_update chromeEnv chromeProg).available_version = "1.3.0" := by
  have h := check_chrome_update_semver chromeEnv chromeProg 0 ("Google.Chrome 1.3.0") ""
    ("1.3.0") ("1.2.0") [1, 2, 0] [1, 3, 0] rfl rfl (by decide) (by decide) (by decide) (by decide)
  constructor
  · rw [h.1]; decide
  · rw [h.1]; decide

/-- C5: whenever the winget upgrade output signals availability but no
version-shaped substring can be extracted from it, the check still
marks the update and records `"Unknown"` as the available version. -/
theorem check_winget_unknown_version (env : CheckEnv) (p : Program)
    (rc : Int) (out err : String)
    (hpid : ¬p.package_id = "")
    (henv : env.winget_upgrade p.package_id = .done rc out err)
    (hsig : (strContains (pyLower out) ("upgrade available")
             || strContains (pyLower out) ("available")) = true)
    (hnov : extractVersion out = none) :
    (check_winget_updates env p).update_available = true ∧
    (check_winget_updates env p).available_version = "Unknown" := by
  unfold check_winget_updates
  rw [if_neg hpid, henv]
  simp [hsig, hnov]

def unknownVerEnv : CheckEnv :=
  { nullCheckEnv with winget_upgrade := fun _ => .done 0 ("1 upgrade available") "" }

def unknownVerProg : Program :=
  { name := "Bar", version := "1.0", source := "winget", package_id := "Bar.Bar" }

theorem check_winget_unknown_version_witness :
    (check_winget_updates unknownVerEnv unknownVerProg).update_available = true ∧
    (check_winget_updates unknownVerEnv unknownVerProg).available_version = "Unknown" :=
  check_winget_unknown_version unknownVerEnv unknownVerProg 0 ("1 upgrade available") ""
    (by decide) rfl (by decide) (by decide)

/-- C10: with an empty `package_id`, both the winget and the chocolatey
update checks return the program record entirely unchanged, for every
possible behaviour of the external tools (so no tool is consulted):
`update_available` and `available_version` keep their prior values. -/
theorem check_empty_package_id_frame (env : CheckEnv) (p : Program)
    (h : p.package_id = "") :
    check_winget_updates env p = p ∧ check_chocolatey_updates env p = p := by
  unfold check_winget_updates check_chocolatey_updates
  rw [if_pos h, if_pos h]
  exact ⟨rfl, rfl⟩

def emptyIdProg : Program :=
  { name := "RegistryOnly", version := "3.1", source := "registry",
    update_available := true, available_version := "9.9" }

theorem check_empty_package_id_frame_witness :
    check_winget_updates equalVerEnv emptyIdProg = emptyIdProg ∧
    check_chocolatey_updates equalVerEnv emptyIdProg = emptyIdProg :=
  check_empty_package_id_frame equalVerEnv emptyIdProg rfl

/-- The `UpdateResult` of `update_installer.py`, restricted to its
value-relevant fields: wall-clock `start_time` / `end_time` are real-time
side data used only for the `duration` display and are not modelled. -/
structure UpdateResult where
  program : Program
  success : Bool
  output : String
  error_message : String
deriving DecidableEq, Repr

/-- `_install_winget_update`: empty package id fails fast, otherwise
`winget upgrade` runs with `success := returncode == 0`; timeouts and
exceptions (a missing executable included — `FileNotFoundError` is an
`Exception` in Python, caught by the generic handler) map to failure
with the source's message texts. -/
def install_winget_update (env : Program → ProcOutcome) (p : Program) : Bool × String × String :=
  if p.package_id = "" then (false, "", "No package ID available")
  else
    match env p with
    | .timedOut => (false, "", "Update timed out")
    | .notFound => (false, "", "Exception: FileNotFoundError")
    | .exn m => (false, "", "Exception: " ++ m)
    | .done rc out err => (rc == 0, out, err)

/-- `_install_chocolatey_update`: same shape as the winget installer. -/
def install_chocolatey_update (env : Program → ProcOutcome) (p : Program) : Bool × String × String :=
  if p.package_id = "" then (false, "", "No package ID available")
  else
    match env p with
    | .timedOut => (false, "", "Update timed out")
    | .notFound => (false, "", "Exception: FileNotFoundError")
    | .exn m => (false, "", "Exception: " ++ m)
    | .done rc out err => (rc == 0, out, err)

/-- `_install_custom_update`: a stated placeholder in the source — it
unconditionally fails with this message. -/
def install_custom_update (_p : Program) : Bool × String × String :=
  (false, "", "Custom update not implemented")

/-- `_install_single_update`: dispatch on `source` and package the
outcome as an `UpdateResult`. -/
def install_single_update (env : Program → ProcOutcome) (p : Program) : UpdateResult :=
  let r :=
    if p.source = "winget" then install_winget_update env p
    else if p.source = "chocolatey" then install_chocolatey_update env p
    else install_custom_update p
  { program := p, success := r.1, output := r.2.1, error_message := r.2.2 }

/-- Python dict assignment `results[name] = result` on an association
list with unique keys: replace the binding in place, or append a fresh
one. -/
def dinsert : List (String × UpdateResult) → String → UpdateResult → List (String × UpdateResult)
  | [], k, v => [(k, v)]
  | (k', v') :: rest, k, v =>
    if k' = k then (k, v) :: rest else (k', v') :: dinsert rest k v

/-- The state of the scheduling loop of `_install_concurrent_updates`:
`idx` is `program_index`, `threads` the live worker threads as pairs of
the program index they run and the number of remaining polling
iterations until the worker finishes (the model's stand-in for real
time; supplied by the `dur` oracle at spawn), and `results` the shared
results dict.  A worker writes its entry when it finishes; the model
records it at the poll that observes the thread dead, which leaves the
final dict identical. -/
structure Sched where
  idx : Nat
  threads : List (Nat × Nat)
  results : List (String × UpdateResult)
deriving Repr

/-- The inner `while active_threads < self.max_concurrent and
program_index < len(programs)` spawn loop; the fuel argument is only a
structural-recursion bound and `n - s.idx` always suffices. -/
def spawnGo (k n : Nat) (dur : Nat → Nat) : Nat → Sched → Sched
  | 0, s => s
  | fuel + 1, s =>
    if s.threads.length < k ∧ s.idx < n then
      spawnGo k n dur fuel
        { idx := s.idx + 1, threads := s.threads ++ [(s.idx, dur s.idx)], results := s.results }
    else s

def spawn (k n : Nat) (dur : Nat → Nat) (s : Sched) : Sched :=
  spawnGo k n dur (n - s.idx) s

/-- Record the results of the threads observed dead in this poll, in
list order, as each dying worker's `results[program.name] = result`. -/
def recordDead (progs : List Program) (env : Program → ProcOutcome)
    (r : List (String × UpdateResult)) (dead : List (Nat × Nat)) : List (String × UpdateResult) :=
  dead.foldl (fun r t =>
    match progs.get? t.1 with
    | some p => dinsert r p.name (install_single_update env p)
    | none => r) r

/-- One iteration of the outer `while program_index < len(programs) or
active_threads > 0` loop: fill worker slots up to the limit, remove and
record the threads found dead, and let one `time.sleep(0.1)` poll
interval pass (each surviving thread's remaining count drops by one). -/
def stepFn (k : Nat) (progs : List Program) (env : Program → ProcOutcome)
    (dur : Nat → Nat) (s : Sched) : Sched :=
  let s1 := spawn k progs.length dur s
  let dead := s1.threads.filter (fun t => t.2 == 0)
  let alive := s1.threads.filter (fun t => t.2 != 0)
  { idx := s1.idx,
    threads := alive.map (fun t => (t.1, t.2 - 1)),
    results := recordDead progs env s1.results dead }

def loopCond (n : Nat) (s : Sched) : Bool :=
  decide (s.idx < n) || !s.threads.isEmpty

/-- The outer loop, fuel-bounded: `some results` when the loop exits
within `fuel` iterations, `none` otherwise.  The Python loop carries no
fuel, so `(∀ fuel, runSched ... fuel s = none)` is exactly its
non-termination from state `s`. -/
def runSched (k : Nat) (progs : List Program) (env : Program → ProcOutcome)
    (dur : Nat → Nat) : Nat → Sched → Option (List (String × UpdateResult))
  | 0, _ => none
  | fuel + 1, s =>
    if loopCond progs.length s then runSched k progs env dur fuel (stepFn k progs env dur s)
    else some s.results

def sched0 : Sched := { idx := 0, threads := [], results := [] }

/-- `_install_concurrent_updates`. -/
def install_concurrent_updates (k : Nat) (progs : List Program)
    (env : Program → ProcOutcome) (dur : Nat → Nat) (fuel : Nat) :
    Option (List (String × UpdateResult)) :=
  runSched k progs env dur fuel sched0

/-- `UpdateInstaller.install_updates`: filter to the programs with an
available update, return the empty dict when there are none, and run
either the sequential (`update_all_at_once`) or the bounded-concurrent
path.  The backup writer and the progress callback are effect-only and
not modelled; no path of the source raises. -/
def install_updates (cfg : Config) (env : Program → ProcOutcome) (dur : Nat → Nat)
    (fuel : Nat) (programs : List Program) : Option (List (String × UpdateResult)) :=
  let programs_to_update := programs.filter (fun p => p.update_available)
  if programs_to_update.isEmpty then some []
  else if cfg.update_all_at_once then
    some (programs_to_update.foldl
      (fun r p => dinsert r p.name (install_single_update env p)) [])
  else install_concurrent_updates cfg.max_concurrent_updates programs_to_update env dur fuel

/-- Sum of `remaining + 1` over the live threads: the number of polls
each will still consume, plus the one poll that removes it. -/
def thrW : List (Nat × Nat) → Nat
  | [] => 0
  | t :: ts => (t.2 + 1) + thrW ts

/-- Sum of `dur i + 1` over the not-yet-started program indices. -/
def pendW (dur : Nat → Nat) (n : Nat) : Nat → Nat
  | idx =>
    if h : idx < n then (dur idx + 1) + pendW dur n (idx + 1)
    else 0
termination_by idx => n - idx
decreasing_by omega

/-- The termination measure of the scheduling loop: total remaining
poll-work. -/
def measureOf (dur : Nat → Nat) (n : Nat) (s : Sched) : Nat :=
  pendW dur n s.idx + thrW s.threads

/-- Non-termination of `install_updates` from the initial state: no
fuel ever suffices, i.e. the Python loop never exits. -/
def InstallDiverges (cfg : Config) (env : Program → ProcOutcome) (dur : Nat → Nat)
    (programs : List Program) : Prop :=
  ∀ fuel, install_updates cfg env dur fuel programs = none

theorem spawnGo_length_le (k n : Nat) (dur : Nat → Nat) :
    ∀ (fuel : Nat) (s : Sched), s.threads.length ≤ k →
      (spawnGo k n dur fuel s).threads.length ≤ k := by
  intro fuel
  induction fuel with
  | zero => intro s h; exact h
  | succ f ih =>
    intro s h
    rw [spawnGo]
    by_cases hc : s.threads.length < k ∧ s.idx < n
    · rw [if_pos hc]
      apply ih
      simp only [List.length_append, List.length_cons, List.length_nil]
      omega
    · rw [if_neg hc]
      exact h

theorem stepFn_threads_le (k : Nat) (progs : List Program) (env : Program → ProcOutcome)
    (dur : Nat → Nat) (s : Sched) (h : s.threads.length ≤ k) :
    (stepFn k progs env dur s).threads.length ≤ k := by
  unfold stepFn
  simp only [List.length_map]
  exact Nat.le_trans (List.length_filter_le _ _)
    (spawnGo_length_le k progs.length dur _ s h)

theorem schedIter_threads_le (k : Nat) (progs : List Program) (env : Program → ProcOutcome)
    (dur : Nat → Nat) : ∀ m, ((stepFn k progs env dur)^[m] sched0).threads.length ≤ k := by
  intro m
  induction m with
  | zero => simp [sched0]
  | succ m ih =>
    rw [Function.iterate_succ_apply']
    exact stepFn_threads_le k progs env dur _ ih

/-- C9: every state the scheduling loop of `_install_concurrent_updates`
can reach — any number `m` of completed outer iterations from the
initial state, followed by any prefix (`fuel` spawn steps, `fuel = 0`
giving the outer state itself) of the next spawn phase — carries at
most `k = max_concurrent` live worker threads, for every input list and
every `k`; since each live thread runs exactly one external install
process, never more than `k` installs run concurrently. -/
theorem install_concurrency_bound (k : Nat) (progs : List Program)
    (env : Program → ProcOutcome) (dur : Nat → Nat) (m fuel : Nat) :
    (spawnGo k progs.length dur fuel ((stepFn k progs env dur)^[m] sched0)).threads.length ≤ k :=
  spawnGo_length_le k progs.length dur fuel _ (schedIter_threads_le k progs env dur m)

theorem pendW_lt {dur : Nat → Nat} {n idx : Nat} (h : idx < n) :
    pendW dur n idx = (dur idx + 1) + pendW dur n (idx + 1) := by
  rw [pendW]
  rw [dif_pos h]

theorem thrW_append (l : List (Nat × Nat)) (x : Nat × Nat) :
    thrW (l ++ [x]) = thrW l + (x.2 + 1) := by
  induction l with
  | nil => simp [thrW]
  | cons t ts ih => simp [thrW, ih]; omega

theorem spawnGo_measure (k n : Nat) (dur : Nat → Nat) :
    ∀ (fuel : Nat) (s : Sched),
      measureOf dur n (spawnGo k n dur fuel s) = measureOf dur n s := by
  intro fuel
  induction fuel with
  | zero => intro s; rfl
  | succ f ih =>
    intro s
    rw [spawnGo]
    by_cases hc : s.threads.length < k ∧ s.idx < n
    · rw [if_pos hc, ih]
      unfold measureOf
      simp only
      rw [thrW_append, pendW_lt hc.2]
      omega
    · rw [if_neg hc]

theorem thrW_after (l : List (Nat × Nat)) :
    thrW ((l.filter (fun t => t.2 != 0)).map (fun t => (t.1, t.2 - 1))) + l.length = thrW l := by
  induction l with
  | nil => rfl
  | cons t ts ih =>
    cases h2 : t.2 with
    | zero =>
      simp only [List.filter_cons, h2, bne_self_eq_false, Bool.false_eq_true, if_false,
        List.length_cons]
      simp only [thrW, h2]
      omega
    | succ d =>
      have hb : ((d + 1 : Nat) != 0) = true := by simp
      simp only [List.filter_cons, h2, hb, if_true, List.map_cons, List.length_cons]
      simp only [thrW, h2]
      omega

theorem spawnGo_threads_extend (k n : Nat) (dur : Nat → Nat) :
    ∀ (fuel : Nat) (s : Sched), ∃ l, (spawnGo k n dur fuel s).threads = s.threads ++ l := by
  intro fuel
  induction fuel with
  | zero => intro s; exact ⟨[], (List.append_nil _).symm⟩
  | succ f ih =>
    intro s
    rw [spawnGo]
    by_cases hc : s.threads.length < k ∧ s.idx < n
    · rw [if_pos hc]
      obtain ⟨l, hl⟩ := ih { idx := s.idx + 1, threads := s.threads ++ [(s.idx, dur s.idx)], results := s.results }
      exact ⟨(s.idx, dur s.idx) :: l, by rw [hl]; simp⟩
    · rw [if_neg hc]
      exact ⟨[], (List.append_nil _).symm⟩

theorem spawn_nonempty (k n : Nat) (dur : Nat → Nat) (s : Sched)
    (hk : 1 ≤ k) (hc : loopCond n s = true) :
    (spawn k n dur s).threads ≠ [] := by
  unfold spawn
  by_cases ht : s.threads = []
  · have hidx : s.idx < n := by
      unfold loopCond at hc
      simp [ht] at hc
      exact hc
    obtain ⟨f, hf⟩ : ∃ f, n - s.idx = f + 1 := ⟨n - s.idx - 1, by omega⟩
    rw [hf, spawnGo]
    have hcond : s.threads.length < k ∧ s.idx < n := by
      rw [ht]
      exact ⟨by simpa using hk, hidx⟩
    rw [if_pos hcond]
    obtain ⟨l, hl⟩ := spawnGo_threads_extend k n dur f
      { idx := s.idx + 1, threads := s.threads ++ [(s.idx, dur s.idx)], results := s.results }
    rw [hl]
    simp
  · obtain ⟨l, hl⟩ := spawnGo_threads_extend k n dur (n - s.idx) s
    rw [hl]
    simp [ht]

theorem stepFn_measure_lt (k : Nat) (progs : List Program) (env : Program → ProcOutcome)
    (dur : Nat → Nat) (s : Sched) (hk : 1 ≤ k) (hc : loopCond progs.length s = true) :
    measureOf dur progs.length (stepFn k progs env dur s) < measureOf dur progs.length s := by
  unfold stepFn
  simp only
  have hms : measureOf dur progs.length (spawn k progs.length dur s) = measureOf dur progs.length s :=
    spawnGo_measure k progs.length dur _ s
  have hne : (spawn k progs.length dur s).threads ≠ [] := spawn_nonempty k progs.length dur s hk hc
  have hlen : 1 ≤ (spawn k progs.length dur s).threads.length := List.length_pos.mpr hne
  have hafter := thrW_after (spawn k progs.length dur s).threads
  unfold measureOf at hms ⊢
  dsimp only at hms ⊢
  omega

theorem runSched_mono (k : Nat) (progs : List Program) (env : Program → ProcOutcome)
    (dur : Nat → Nat) :
    ∀ (fuel fuel' : Nat) (s : Sched) (r : List (String × UpdateResult)), fuel ≤ fuel' →
      runSched k progs env dur fuel s = some r → runSched k progs env dur fuel' s = some r := by
  intro fuel
  induction fuel with
  | zero =>
    intro fuel' s r _ hr
    simp [runSched] at hr
  | succ f ih =>
    intro fuel' s r h hr
    obtain ⟨f', rfl⟩ : ∃ f', fuel' = f' + 1 := ⟨fuel' - 1, by omega⟩
    rw [runSched] at hr ⊢
    by_cases hc : loopCond progs.length s = true
    · rw [if_pos hc] at hr ⊢
      exact ih f' _ r (by omega) hr
    · rw [if_neg hc] at hr ⊢
      exact hr

theorem runSched_term (k : Nat) (progs : List Program) (env : Program → ProcOutcome)
    (dur : Nat → Nat) (hk : 1 ≤ k) :
    ∀ (s : Sched), ∃ r, runSched k progs env dur (measureOf dur progs.length s + 1) s = some r := by
  have main : ∀ (μ : Nat) (s : Sched), measureOf dur progs.length s ≤ μ →
      ∃ r, runSched k progs env dur (measureOf dur progs.length s + 1) s = some r := by
    intro μ
    induction μ with
    | zero =>
      intro s hμ
      by_cases hc : loopCond progs.length s = true
      · have := stepFn_measure_lt k progs env dur s hk hc
        omega
      · refine ⟨s.results, ?_⟩
        rw [runSched, if_neg hc]
    | succ μ ih =>
      intro s hμ
      by_cases hc : loopCond progs.length s = true
      · have hlt := stepFn_measure_lt k progs env dur s hk hc
        obtain ⟨r, hr⟩ := ih (stepFn k progs env dur s) (by omega)
        refine ⟨r, ?_⟩
        have hmono : runSched k progs env dur (measureOf dur progs.length s) (stepFn k progs env dur s) = some r :=
          runSched_mono k progs env dur _ _ _ r (by omega) hr
        rw [runSched, if_pos hc]
        exact hmono
      · refine ⟨s.results, ?_⟩
        rw [runSched, if_neg hc]
  intro s
  exact main (measureOf dur progs.length s) s (Nat.le_refl _)

theorem dinsert_lookup_self (m : List (String × UpdateResult)) (k : String) (v : UpdateResult) :
    (dinsert m k v).lookup k = some v := by
  induction m with
  | nil => simp [dinsert, List.lookup]
  | cons kv rest ih =>
    obtain ⟨a, b⟩ := kv
    by_cases h : a = k
    · simp [dinsert, h, List.lookup]
    · have hb : (k == a) = false := by
        simp
        intro e
        exact h e.symm
      simp [dinsert, h, List.lookup, hb]
      exact ih

theorem dinsert_lookup_other (m : List (String × UpdateResult)) (k : String) (v : UpdateResult)
    (key : String) (h : ¬key = k) :
    (dinsert m k v).lookup key = m.lookup key := by
  induction m with
  | nil =>
    have hb : (key == k) = false := by simp [h]
    simp [dinsert, List.lookup, hb]
  | cons kv rest ih =>
    obtain ⟨a, b⟩ := kv
    by_cases ha : a = k
    · have hb : (key == k) = false := by simp [h]
      have hb2 : (key == a) = false := by simp [ha ▸ h]
      simp [dinsert, ha, List.lookup, hb, hb2]
    · by_cases hka : key = a
      · have hb : (key == a) = true := by simp [hka]
        simp [dinsert, ha, List.lookup, hb]
      · have hb : (key == a) = false := by simp [hka]
        simp [dinsert, ha, List.lookup, hb]
        exact ih

theorem dinsert_lookup_isSome (m : List (String × UpdateResult)) (k : String) (v : UpdateResult)
    (key : String) (h : (m.lookup key).isSome = true) :
    ((dinsert m k v).lookup key).isSome = true := by
  by_cases hk : key = k
  · rw [hk, dinsert_lookup_self]
    rfl
  · rw [dinsert_lookup_other m k v key hk]
    exact h

theorem recordDead_isSome_mono (progs : List Program) (env : Program → ProcOutcome)
    (dead : List (Nat × Nat)) :
    ∀ (r : List (String × UpdateResult)) (key : String), (r.lookup key).isSome = true →
      ((recordDead progs env r dead).lookup key).isSome = true := by
  induction dead with
  | nil => intro r key h; exact h
  | cons t rest ih =>
    intro r key h
    unfold recordDead
    rw [List.foldl_cons]
    cases hg : progs.get? t.1 with
    | none =>
      simp only [hg]
      exact ih r key h
    | some p =>
      simp only [hg]
      exact ih _ key (dinsert_lookup_isSome r p.name _ key h)

theorem recordDead_covers (progs : List Program) (env : Program → ProcOutcome)
    (dead : List (Nat × Nat)) :
    ∀ (r : List (String × UpdateResult)) (t : Nat × Nat), t ∈ dead →
      ∀ p, progs.get? t.1 = some p →
        ((recordDead progs env r dead).lookup p.name).isSome = true := by
  induction dead with
  | nil => intro r t ht; cases ht
  | cons t0 rest ih =>
    intro r t ht p hp
    cases List.mem_cons.mp ht with
    | inl h =>
      subst h
      unfold recordDead
      rw [List.foldl_cons]
      simp only [hp]
      exact recordDead_isSome_mono progs env rest _ p.name
        (by rw [dinsert_lookup_self]; rfl)
    | inr h =>
      unfold recordDead
      rw [List.foldl_cons]
      cases hg : progs.get? t0.1 with
      | none =>
        simp only [hg]
        exact ih r t h p hp
      | some q =>
        simp only [hg]
        exact ih _ t h p hp

/-- The reachability invariant of the scheduling loop used for the
termination-coverage theorem: started indices are below `idx`, and every
started index is either still running or already recorded under its
program's name. -/
def WInv (progs : List Program) (s : Sched) : Prop :=
  s.idx ≤ progs.length ∧
  (∀ t ∈ s.threads, t.1 < s.idx) ∧
  (∀ i, i < s.idx →
     (∃ t ∈ s.threads, t.1 = i) ∨
     (∀ p, progs.get? i = some p → (s.results.lookup p.name).isSome = true))

theorem spawnGo_winv (k : Nat) (progs : List Program) (dur : Nat → Nat) :
    ∀ (fuel : Nat) (s : Sched), WInv progs s →
      WInv progs (spawnGo k progs.length dur fuel s) := by
  intro fuel
  induction fuel with
  | zero => intro s h; exact h
  | succ f ih =>
    intro s h
    rw [spawnGo]
    by_cases hc : s.threads.length < k ∧ s.idx < progs.length
    · rw [if_pos hc]
      apply ih
      obtain ⟨h1, h2, h3⟩ := h
      refine ⟨?_, ?_, ?_⟩
      · show s.idx + 1 ≤ progs.length
        omega
      · intro t ht
        show t.1 < s.idx + 1
        cases List.mem_append.mp ht with
        | inl hl => exact Nat.lt_succ_of_lt (h2 t hl)
        | inr hr =>
          rw [List.mem_singleton.mp hr]
          exact Nat.lt_succ_self _
      · intro i hi
        have hi' : i < s.idx + 1 := hi
        by_cases hii : i < s.idx
        · cases h3 i hii with
          | inl hl =>
            obtain ⟨t, htm, hte⟩ := hl
            exact Or.inl ⟨t, List.mem_append_left _ htm, hte⟩
          | inr hr => exact Or.inr hr
        · have hieq : i = s.idx := by omega
          exact Or.inl ⟨(s.idx, dur s.idx),
            List.mem_append_right _ (List.mem_singleton.mpr rfl), hieq.symm⟩
    · rw [if_neg hc]
      exact h

theorem stepFn_winv (k : Nat) (progs : List Program) (env : Program → ProcOutcome)
    (dur : Nat → Nat) (s : Sched) (h : WInv progs s) :
    WInv progs (stepFn k progs env dur s) := by
  have hs1 : WInv progs (spawn k progs.length dur s) := spawnGo_winv k progs dur _ s h
  obtain ⟨h1, h2, h3⟩ := hs1
  unfold stepFn
  refine ⟨h1, ?_, ?_⟩
  · intro t' ht'
    obtain ⟨t, htm, hte⟩ := List.mem_map.mp ht'
    have := h2 t (List.mem_filter.mp htm).1
    rw [← hte]
    exact this
  · intro i hi
    cases h3 i hi with
    | inl hl =>
      obtain ⟨t, htm, hte⟩ := hl
      by_cases hdead : (t.2 == 0) = true
      · refine Or.inr ?_
        intro p hp
        have htd : t ∈ (spawn k progs.length dur s).threads.filter (fun t => t.2 == 0) :=
          List.mem_filter.mpr ⟨htm, hdead⟩
        exact recordDead_covers progs env _ _ t htd p (hte ▸ hp)
      · refine Or.inl ?_
        have halive : t ∈ (spawn k progs.length dur s).threads.filter (fun t => t.2 != 0) :=
          List.mem_filter.mpr ⟨htm, by simpa using hdead⟩
        exact ⟨(t.1, t.2 - 1), List.mem_map.mpr ⟨t, halive, rfl⟩, hte⟩
    | inr hr =>
      refine Or.inr ?_
      intro p hp
      exact recordDead_isSome_mono progs env _ _ p.name (hr p hp)

theorem runSched_final (P : Sched → Prop) (k : Nat) (progs : List Program)
    (env : Program → ProcOutcome) (dur : Nat → Nat)
    (hstep : ∀ s, P s → loopCond progs.length s = true → P (stepFn k progs env dur s)) :
    ∀ (fuel : Nat) (s : Sched) (r : List (String × UpdateResult)), P s →
      runSched k progs env dur fuel s = some r →
      ∃ s', r = s'.results ∧ P s' ∧ loopCond progs.length s' = false := by
  intro fuel
  induction fuel with
  | zero =>
    intro s r _ hr
    simp [runSched] at hr
  | succ f ih =>
    intro s r hP hr
    rw [runSched] at hr
    by_cases hc : loopCond progs.length s = true
    · rw [if_pos hc] at hr
      exact ih _ r (hstep s hP hc) hr
    · rw [if_neg hc] at hr
      cases hr
      exact ⟨s, rfl, hP, Bool.eq_false_iff.mpr hc⟩

theorem seqfold_isSome_mono (env : Program → ProcOutcome) (l : List Program) :
    ∀ (r : List (String × UpdateResult)) (key : String), (r.lookup key).isSome = true →
      ((l.foldl (fun r q => dinsert r q.name (install_single_update env q)) r).lookup key).isSome = true := by
  induction l with
  | nil => intro r key h; exact h
  | cons q rest ih =>
    intro r key h
    rw [List.foldl_cons]
    exact ih _ key (dinsert_lookup_isSome r q.name _ key h)

theorem seqfold_covers (env : Program → ProcOutcome) (l : List Program) :
    ∀ (r : List (String × UpdateResult)) (p : Program), p ∈ l →
      ((l.foldl (fun r q => dinsert r q.name (install_single_update env q)) r).lookup p.name).isSome = true := by
  induction l with
  | nil => intro r p hp; cases hp
  | cons q rest ih =>
    intro r p hp
    rw [List.foldl_cons]
    cases List.mem_cons.mp hp with
    | inl h =>
      subst h
      exact seqfold_isSome_mono env rest _ p.name (by rw [dinsert_lookup_self]; rfl)
    | inr h => exact ih _ p h

/-- C2 (amended): for every *positive* concurrency limit,
`install_updates` terminates (some finite fuel makes the scheduling
loop exit) and every attempted item — every input program with
`update_available` — has reached a terminal state, witnessed by its
entry in the returned result map; the embedded function is total, and no
path of the source raises.  (The claim's `raise` for a limit ≤ 0 does
not exist in the code: see the counterexample, where the loop instead
never terminates.) -/
theorem install_updates_terminates (cfg : Config) (env : Program → ProcOutcome)
    (dur : Nat → Nat) (programs : List Program)
    (hk : 1 ≤ cfg.max_concurrent_updates) :
    ∃ fuel r, install_updates cfg env dur fuel programs = some r ∧
      ∀ p ∈ programs, p.update_available = true → (r.lookup p.name).isSome = true := by
  by_cases he : (programs.filter (fun p => p.update_available)).isEmpty = true
  · refine ⟨1, [], ?_, ?_⟩
    · unfold install_updates
      simp only [he, if_true]
    · intro p hp hav
      exfalso
      rw [List.isEmpty_iff] at he
      have hmem : p ∈ programs.filter (fun p => p.update_available) :=
        List.mem_filter.mpr ⟨hp, hav⟩
      rw [he] at hmem
      cases hmem
  · have he' : (programs.filter (fun p => p.update_available)).isEmpty = false :=
      Bool.eq_false_iff.mpr he
    by_cases hseq : cfg.update_all_at_once = true
    · refine ⟨1, (programs.filter (fun p => p.update_available)).foldl
        (fun r p => dinsert r p.name (install_single_update env p)) [], ?_, ?_⟩
      · unfold install_updates
        simp only [he', hseq, Bool.false_eq_true, if_false, if_true]
      · intro p hp hav
        exact seqfold_covers env _ [] p (List.mem_filter.mpr ⟨hp, hav⟩)
    · have hseq' : cfg.update_all_at_once = false := Bool.eq_false_iff.mpr hseq
      obtain ⟨r, hr⟩ := runSched_term cfg.max_concurrent_updates
        (programs.filter (fun p => p.update_available)) env dur hk sched0
      refine ⟨measureOf dur (programs.filter (fun p => p.update_available)).length sched0 + 1,
        r, ?_, ?_⟩
      · unfold install_updates install_concurrent_updates
        simp only [he', hseq', Bool.false_eq_true, if_false]
        exact hr
      · have hW0 : WInv (programs.filter (fun p => p.update_available)) sched0 := by
          refine ⟨by simp [sched0], by simp [sched0], ?_⟩
          intro i hi
          simp [sched0] at hi
        obtain ⟨s', hrs, hW', hcond⟩ := runSched_final
          (WInv (programs.filter (fun p => p.update_available)))
          cfg.max_concurrent_updates (programs.filter (fun p => p.update_available)) env dur
          (fun s hP hc => stepFn_winv cfg.max_concurrent_updates _ env dur s hP)
          _ sched0 r hW0 hr
        intro p hp hav
        have hpatd : p ∈ programs.filter (fun p => p.update_available) :=
          List.mem_filter.mpr ⟨hp, hav⟩
        obtain ⟨i, hi⟩ := List.mem_iff_get?.mp hpatd
        have hi_lt : i < (programs.filter (fun p => p.update_available)).length :=
          (List.get?_eq_some.mp hi).1
        have hterm : (programs.filter (fun p => p.update_available)).length ≤ s'.idx ∧
            s'.threads = [] := by
          unfold loopCond at hcond
          rw [Bool.or_eq_false_iff] at hcond
          obtain ⟨hc1, hc2⟩ := hcond
          have hlt := of_decide_eq_false hc1
          have hempty : s'.threads.isEmpty = true := by
            cases hE : s'.threads.isEmpty
            · rw [hE] at hc2
              simp at hc2
            · rfl
          exact ⟨by omega, List.isEmpty_iff.mp hempty⟩
        obtain ⟨hW1, hW2, hW3⟩ := hW'
        cases hW3 i (by omega) with
        | inl hl =>
          obtain ⟨t, htm, _⟩ := hl
          rw [hterm.2] at htm
          cases htm
        | inr hrr =>
          rw [hrs]
          exact hrr p hi

/-- A program list of five distinct winget items, all with an available
update; the environment makes the install of `"B"` fail with a nonzero
exit and succeeds for the rest. -/
def mkInstallProg (nm : String) : Program :=
  { name := nm, version := "1.0", source := "winget", package_id := nm, update_available := true }

def wprogs : List Program :=
  [mkInstallProg "A", mkInstallProg "B", mkInstallProg "C", mkInstallProg "D", mkInstallProg "E"]

def instEnvW : Program → ProcOutcome :=
  fun p => if p.name = "B" then .done 1 "" "boom" else .done 0 "ok" ""

theorem install_updates_terminates_witness :
    1 ≤ default_config.max_concurrent_updates ∧
    (∃ fuel r, install_updates default_config instEnvW (fun i => i) fuel wprogs = some r ∧
      ∀ p ∈ wprogs, p.update_available = true → (r.lookup p.name).isSome = true) :=
  ⟨by decide,
   install_updates_terminates default_config instEnvW (fun i => i) wprogs (by decide)⟩

def soloProg : Program :=
  { name := "Solo", version := "1.0", source := "winget", package_id := "Solo.Solo",
    update_available := true }

def zeroCfg : Config := { default_config with max_concurrent_updates := 0 }

def soloEnv : Program → ProcOutcome := fun _ => .done 0 "" ""

/-- C2 (counterexample): with `max_concurrent_updates = 0` (the claimed
"invalid concurrency limit ≤ 0") and one pending update, nothing is
raised — there is no validation anywhere in `update_installer.py` —
and the scheduling loop never terminates: its loop condition holds at
the initial state, one whole loop iteration is the identity (no thread
can ever be started), so no amount of fuel makes the loop exit. -/
theorem install_zero_limit_diverges :
    stepFn 0 [soloProg] soloEnv (fun _ => 0) sched0 = sched0 ∧
    loopCond ([soloProg].length) sched0 = true ∧
    InstallDiverges zeroCfg soloEnv (fun _ => 0) [soloProg] := by
  have hfix : stepFn 0 [soloProg] soloEnv (fun _ => 0) sched0 = sched0 := rfl
  refine ⟨hfix, rfl, ?_⟩
  have key : ∀ f, runSched 0 [soloProg] soloEnv (fun _ => 0) f sched0 = none := by
    intro f
    induction f with
    | zero => rfl
    | succ f ih =>
      rw [runSched]
      rw [if_pos (show loopCond ([soloProg].length) sched0 = true from rfl)]
      rw [hfix]
      exact ih
  intro fuel
  have hred : install_updates zeroCfg soloEnv (fun _ => 0) fuel [soloProg]
      = runSched 0 [soloProg] soloEnv (fun _ => 0) fuel sched0 := rfl
  rw [hred]
  exact key fuel

theorem lookup_mem_res (m : List (String × UpdateResult)) (key : String) (v : UpdateResult)
    (h : m.lookup key = some v) : (key, v) ∈ m := by
  induction m with
  | nil => simp [List.lookup] at h
  | cons kv rest ih =>
    obtain ⟨a, b⟩ := kv
    by_cases hk : key = a
    · have hb : (key == a) = true := by simp [hk]
      rw [List.lookup, hb] at h
      cases h
      rw [hk]
      exact List.mem_cons_self _ _
    · have hb : (key == a) = false := by simp [hk]
      rw [List.lookup, hb] at h
      exact List.mem_cons_of_mem _ (ih h)

theorem dinsert_mem (m : List (String × UpdateResult)) (k : String) (v : UpdateResult)
    (kv : String × UpdateResult) (h : kv ∈ dinsert m k v) : kv = (k, v) ∨ kv ∈ m := by
  induction m with
  | nil =>
    rw [dinsert] at h
    exact Or.inl (List.mem_singleton.mp h)
  | cons ab rest ih =>
    obtain ⟨a, b⟩ := ab
    rw [dinsert] at h
    by_cases ha : a = k
    · rw [if_pos ha] at h
      cases List.mem_cons.mp h with
      | inl he => exact Or.inl he
      | inr hm => exact Or.inr (List.mem_cons_of_mem _ hm)
    · rw [if_neg ha] at h
      cases List.mem_cons.mp h with
      | inl he => exact Or.inr (he ▸ List.mem_cons_self _ _)
      | inr hm =>
        cases ih hm with
        | inl he => exact Or.inl he
        | inr hm2 => exact Or.inr (List.mem_cons_of_mem _ hm2)

theorem dinsert_keys_mem (m : List (String × UpdateResult)) (k : String) (v : UpdateResult)
    (x : String) (h : x ∈ (dinsert m k v).map Prod.fst) :
    x ∈ m.map Prod.fst ∨ x = k := by
  obtain ⟨kv, hkv, hx⟩ := List.mem_map.mp h
  cases dinsert_mem m k v kv hkv with
  | inl he =>
    rw [he] at hx
    exact Or.inr hx.symm
  | inr hm => exact Or.inl (List.mem_map.mpr ⟨kv, hm, hx⟩)

theorem dinsert_keys_nodup (m : List (String × UpdateResult)) (k : String) (v : UpdateResult)
    (h : (m.map Prod.fst).Nodup) : ((dinsert m k v).map Prod.fst).Nodup := by
  induction m with
  | nil => simp [dinsert]
  | cons ab rest ih =>
    obtain ⟨a, b⟩ := ab
    rw [dinsert]
    by_cases ha : a = k
    · rw [if_pos ha]
      simp only [List.map_cons, List.nodup_cons] at h ⊢
      rw [← ha]
      exact h
    · rw [if_neg ha]
      simp only [List.map_cons, List.nodup_cons] at h ⊢
      refine ⟨?_, ih h.2⟩
      intro hmem
      cases dinsert_keys_mem rest k v a hmem with
      | inl hm => exact h.1 hm
      | inr he => exact ha he

theorem recordDead_lookup_frame (progs : List Program) (env : Program → ProcOutcome)
    (dead : List (Nat × Nat)) :
    ∀ (r : List (String × UpdateResult)) (key : String),
      (∀ t ∈ dead, ∀ p, progs.get? t.1 = some p → ¬p.name = key) →
      (recordDead progs env r dead).lookup key = r.lookup key := by
  induction dead with
  | nil => intro r key _; rfl
  | cons t0 rest ih =>
    intro r key hfr
    unfold recordDead
    rw [List.foldl_cons]
    cases hg : progs.get? t0.1 with
    | none =>
      simp only [hg]
      exact ih r key (fun t ht p hp => hfr t (List.mem_cons_of_mem _ ht) p hp)
    | some p =>
      simp only [hg]
      have h1 := ih (dinsert r p.name (install_single_update env p)) key
        (fun t ht q hq => hfr t (List.mem_cons_of_mem _ ht) q hq)
      unfold recordDead at h1
      rw [h1]
      exact dinsert_lookup_other r p.name _ key
        (fun he => hfr t0 (List.mem_cons_self _ _) p hg he.symm)

theorem recordDead_lookup_hit (progs : List Program) (env : Program → ProcOutcome)
    (dead : List (Nat × Nat)) :
    ∀ (r : List (String × UpdateResult)) (t : Nat × Nat) (p : Program),
      t ∈ dead → progs.get? t.1 = some p →
      (∀ t1 t2, t1 ∈ dead → t2 ∈ dead → ∀ q1 q2, progs.get? t1.1 = some q1 →
        progs.get? t2.1 = some q2 → q1.name = q2.name → t1.1 = t2.1) →
      (dead.map Prod.fst).Nodup →
      (recordDead progs env r dead).lookup p.name = some (install_single_update env p) := by
  induction dead with
  | nil => intro r t p ht; cases ht
  | cons t0 rest ih =>
    intro r t p ht hp hnm hnd
    unfold recordDead
    rw [List.foldl_cons]
    simp only [List.map_cons, List.nodup_cons] at hnd
    cases List.mem_cons.mp ht with
    | inl he =>
      subst he
      simp only [hp]
      have hfr : ∀ t' ∈ rest, ∀ q, progs.get? t'.1 = some q → ¬q.name = p.name := by
        intro t' ht' q hq habs
        have := hnm t' t (List.mem_cons_of_mem _ ht') (List.mem_cons_self _ _) q p hq hp habs
        exact hnd.1 (this ▸ List.mem_map.mpr ⟨t', ht', rfl⟩)
      have h1 := recordDead_lookup_frame progs env rest
        (dinsert r p.name (install_single_update env p)) p.name hfr
      unfold recordDead at h1
      rw [h1]
      exact dinsert_lookup_self r p.name _
    | inr hm =>
      cases hg : progs.get? t0.1 with
      | none =>
        simp only [hg]
        exact ih r t p hm hp
          (fun t1 t2 h1 h2 => hnm t1 t2 (List.mem_cons_of_mem _ h1) (List.mem_cons_of_mem _ h2))
          hnd.2
      | some q =>
        simp only [hg]
        exact ih _ t p hm hp
          (fun t1 t2 h1 h2 => hnm t1 t2 (List.mem_cons_of_mem _ h1) (List.mem_cons_of_mem _ h2))
          hnd.2

theorem recordDead_mem (progs : List Program) (env : Program → ProcOutcome)
    (dead : List (Nat × Nat)) :
    ∀ (r : List (String × UpdateResult)) (kv : String × UpdateResult),
      kv ∈ recordDead progs env r dead →
      kv ∈ r ∨ ∃ t ∈ dead, ∃ p, progs.get? t.1 = some p ∧
        kv = (p.name, install_single_update env p) := by
  induction dead with
  | nil => intro r kv h; exact Or.inl h
  | cons t0 rest ih =>
    intro r kv h
    unfold recordDead at h
    rw [List.foldl_cons] at h
    cases hg : progs.get? t0.1 with
    | none =>
      rw [hg] at h
      cases ih r kv h with
      | inl hl => exact Or.inl hl
      | inr hr =>
        obtain ⟨t, ht, p, hp, he⟩ := hr
        exact Or.inr ⟨t, List.mem_cons_of_mem _ ht, p, hp, he⟩
    | some q =>
      rw [hg] at h
      cases ih _ kv h with
      | inl hl =>
        cases dinsert_mem r q.name _ kv hl with
        | inl he => exact Or.inr ⟨t0, List.mem_cons_self _ _, q, hg, he⟩
        | inr hm => exact Or.inl hm
      | inr hr =>
        obtain ⟨t, ht, p, hp, he⟩ := hr
        exact Or.inr ⟨t, List.mem_cons_of_mem _ ht, p, hp, he⟩

theorem recordDead_keys_nodup (progs : List Program) (env : Program → ProcOutcome)
    (dead : List (Nat × Nat)) :
    ∀ (r : List (String × UpdateResult)), (r.map Prod.fst).Nodup →
      ((recordDead progs env r dead).map Prod.fst).Nodup := by
  induction dead with
  | nil => intro r h; exact h
  | cons t0 rest ih =>
    intro r h
    unfold recordDead
    rw [List.foldl_cons]
    cases hg : progs.get? t0.1 with
    | none =>
      simp only [hg]
      exact ih r h
    | some q =>
      simp only [hg]
      exact ih _ (dinsert_keys_nodup r q.name _ h)

/-- Pairwise-distinct program names, indexed form. -/
def NamesDistinct (progs : List Program) : Prop :=
  ∀ i j p q, progs.get? i = some p → progs.get? j = some q → ¬i = j → ¬p.name = q.name

/-- The strong scheduling-loop invariant used when program names are
pairwise distinct: each started index is either live or recorded exactly
once with exactly its own `_install_single_update` result, live indexes
are unrecorded, and the results dict holds nothing else. -/
def SInv (progs : List Program) (env : Program → ProcOutcome) (s : Sched) : Prop :=
  s.idx ≤ progs.length ∧
  (s.threads.map Prod.fst).Nodup ∧
  (∀ t ∈ s.threads, t.1 < s.idx) ∧
  (∀ i, i < s.idx → (i ∈ s.threads.map Prod.fst) ∨
     (∀ p, progs.get? i = some p →
        s.results.lookup p.name = some (install_single_update env p))) ∧
  (∀ t ∈ s.threads, ∀ p, progs.get? t.1 = some p → s.results.lookup p.name = none) ∧
  (∀ kv ∈ s.results, ∃ i, i < s.idx ∧ ∃ p, progs.get? i = some p ∧
      kv.1 = p.name ∧ kv.2 = install_single_update env p) ∧
  (s.results.map Prod.fst).Nodup

theorem spawnGo_sinv (k : Nat) (progs : List Program) (env : Program → ProcOutcome)
    (dur : Nat → Nat) (hDn : NamesDistinct progs) :
    ∀ (fuel : Nat) (s : Sched), SInv progs env s →
      SInv progs env (spawnGo k progs.length dur fuel s) := by
  intro fuel
  induction fuel with
  | zero => intro s h; exact h
  | succ f ih =>
    intro s h
    rw [spawnGo]
    by_cases hc : s.threads.length < k ∧ s.idx < progs.length
    · rw [if_pos hc]
      apply ih
      obtain ⟨h1, h2, h3, h4, h5, h6, h7⟩ := h
      refine ⟨?_, ?_, ?_, ?_, ?_, ?_, ?_⟩
      · show s.idx + 1 ≤ progs.length
        omega
      · show ((s.threads ++ [(s.idx, dur s.idx)]).map Prod.fst).Nodup
        rw [List.map_append, List.nodup_append]
        refine ⟨h2, by simp, ?_⟩
        intro a ha hb
        simp only [List.map_cons, List.map_nil, List.mem_singleton] at hb
        obtain ⟨t, htm, hte⟩ := List.mem_map.mp ha
        have := h3 t htm
        omega
      · intro t ht
        show t.1 < s.idx + 1
        cases List.mem_append.mp ht with
        | inl hl => exact Nat.lt_succ_of_lt (h3 t hl)
        | inr hr =>
          rw [List.mem_singleton.mp hr]
          exact Nat.lt_succ_self _
      · intro i hi
        have hi' : i < s.idx + 1 := hi
        by_cases hii : i < s.idx
        · cases h4 i hii with
          | inl hl =>
            refine Or.inl ?_
            rw [List.map_append]
            exact List.mem_append_left _ hl
          | inr hr => exact Or.inr hr
        · have hieq : i = s.idx := by omega
          refine Or.inl ?_
          rw [List.map_append, hieq]
          exact List.mem_append_right _ (by simp)
      · intro t ht p hp
        cases List.mem_append.mp ht with
        | inl hl => exact h5 t hl p hp
        | inr hr =>
          have hte : t = (s.idx, dur s.idx) := List.mem_singleton.mp hr
          cases hlook : List.lookup p.name s.results with
          | none => rfl
          | some v =>
            exfalso
            have hmem := lookup_mem_res _ _ _ hlook
            obtain ⟨j, hj, q, hq, hname, _⟩ := h6 (p.name, v) hmem
            have hij : ¬j = s.idx := by omega
            have hpi : progs.get? s.idx = some p := by
              rw [hte] at hp
              exact hp
            exact hDn j s.idx q p hq hpi hij hname.symm
      · intro kv hkv
        obtain ⟨i, hi, hrest⟩ := h6 kv hkv
        refine ⟨i, ?_, hrest⟩
        show i < s.idx + 1
        omega
      · exact h7
    · rw [if_neg hc]
      exact h

theorem stepFn_sinv (k : Nat) (progs : List Program) (env : Program → ProcOutcome)
    (dur : Nat → Nat) (hDn : NamesDistinct progs) (s : Sched) (h : SInv progs env s) :
    SInv progs env (stepFn k progs env dur s) := by
  have hs1 : SInv progs env (spawn k progs.length dur s) :=
    spawnGo_sinv k progs env dur hDn _ s h
  obtain ⟨h1, h2, h3, h4, h5, h6, h7⟩ := hs1
  set s1 := spawn k progs.length dur s with hs1def
  have hdead_sub : ∀ t ∈ s1.threads.filter (fun t => t.2 == 0), t ∈ s1.threads :=
    fun t ht => (List.mem_filter.mp ht).1
  have halive_sub : ∀ t ∈ s1.threads.filter (fun t => t.2 != 0), t ∈ s1.threads :=
    fun t ht => (List.mem_filter.mp ht).1
  have hdead_nodup : ((s1.threads.filter (fun t => t.2 == 0)).map Prod.fst).Nodup :=
    List.Nodup.sublist (List.Sublist.map _ (List.filter_sublist _)) h2
  have hinj := List.inj_on_of_nodup_map h2
  have hnm : ∀ t1 t2, t1 ∈ s1.threads.filter (fun t => t.2 == 0) →
      t2 ∈ s1.threads.filter (fun t => t.2 == 0) → ∀ q1 q2, progs.get? t1.1 = some q1 →
      progs.get? t2.1 = some q2 → q1.name = q2.name → t1.1 = t2.1 := by
    intro t1 t2 ht1 ht2 q1 q2 hq1 hq2 hname
    by_cases he : t1.1 = t2.1
    · exact he
    · exfalso
      exact hDn t1.1 t2.1 q1 q2 hq1 hq2 he hname
  unfold stepFn
  refine ⟨h1, ?_, ?_, ?_, ?_, ?_, ?_⟩
  · show ((((s1.threads.filter (fun t => t.2 != 0)).map (fun t => (t.1, t.2 - 1)))).map Prod.fst).Nodup
    rw [List.map_map]
    have : (Prod.fst ∘ fun t : Nat × Nat => (t.1, t.2 - 1)) = Prod.fst := rfl
    rw [this]
    exact List.Nodup.sublist (List.Sublist.map _ (List.filter_sublist _)) h2
  · intro t' ht'
    obtain ⟨t, htm, hte⟩ := List.mem_map.mp ht'
    have := h3 t (halive_sub t htm)
    rw [← hte]
    exact this
  · intro i hi
    cases h4 i hi with
    | inl hl =>
      obtain ⟨t, htm, hte⟩ := List.mem_map.mp hl
      by_cases hdead : (t.2 == 0) = true
      · refine Or.inr ?_
        intro p hp
        have htd : t ∈ s1.threads.filter (fun t => t.2 == 0) :=
          List.mem_filter.mpr ⟨htm, hdead⟩
        exact recordDead_lookup_hit progs env _ s1.results t p htd (hte ▸ hp) hnm hdead_nodup
      · refine Or.inl ?_
        have halive : t ∈ s1.threads.filter (fun t => t.2 != 0) :=
          List.mem_filter.mpr ⟨htm, by simpa using hdead⟩
        exact List.mem_map.mpr ⟨(t.1, t.2 - 1), List.mem_map.mpr ⟨t, halive, rfl⟩, hte⟩
    | inr hr =>
      refine Or.inr ?_
      intro p hp
      have hframe : ∀ t' ∈ s1.threads.filter (fun t => t.2 == 0), ∀ q,
          progs.get? t'.1 = some q → ¬q.name = p.name := by
        intro t' ht' q hq habs
        have hnone := h5 t' (hdead_sub t' ht') q hq
        have hsome := hr p hp
        rw [habs] at hnone
        rw [hnone] at hsome
        cases hsome
      rw [recordDead_lookup_frame progs env _ s1.results p.name hframe]
      exact hr p hp
  · intro t' ht' p hp
    obtain ⟨t, htm, hte⟩ := List.mem_map.mp ht'
    have htalive : t ∈ s1.threads.filter (fun t => t.2 != 0) := htm
    have hti : progs.get? t.1 = some p := by
      rw [← hte] at hp
      exact hp
    have hframe : ∀ td ∈ s1.threads.filter (fun t => t.2 == 0), ∀ q,
        progs.get? td.1 = some q → ¬q.name = p.name := by
      intro td htd q hq habs
      have hne : ¬td.1 = t.1 := by
        intro he
        have := hinj (hdead_sub td htd) (halive_sub t htalive) he
        rw [this] at htd
        have h1f := (List.mem_filter.mp htd).2
        have h2f := (List.mem_filter.mp htalive).2
        simp at h1f h2f
        exact h2f h1f
      exact hDn td.1 t.1 q p hq hti hne habs
    rw [recordDead_lookup_frame progs env _ s1.results p.name hframe]
    exact h5 t (halive_sub t htalive) p hti
  · intro kv hkv
    cases recordDead_mem progs env _ s1.results kv hkv with
    | inl hl => exact h6 kv hl
    | inr hr =>
      obtain ⟨t, ht, p, hp, he⟩ := hr
      refine ⟨t.1, h3 t (hdead_sub t ht), p, hp, ?_, ?_⟩
      · rw [he]
      · rw [he]
  · exact recordDead_keys_nodup progs env _ s1.results h7

theorem seqfold_lookup_frame (env : Program → ProcOutcome) (l : List Program) :
    ∀ (r : List (String × UpdateResult)) (key : String), (∀ q ∈ l, ¬q.name = key) →
      ((l.foldl (fun r q => dinsert r q.name (install_single_update env q)) r).lookup key)
        = r.lookup key := by
  induction l with
  | nil => intro r key _; rfl
  | cons q rest ih =>
    intro r key hfr
    rw [List.foldl_cons]
    rw [ih _ key (fun q' hq' => hfr q' (List.mem_cons_of_mem _ hq'))]
    exact dinsert_lookup_other r q.name _ key
      (fun he => hfr q (List.mem_cons_self _ _) he.symm)

theorem seqfold_lookup_hit (env : Program → ProcOutcome) (l : List Program) :
    ∀ (r : List (String × UpdateResult)) (p : Program), p ∈ l →
      (l.map Program.name).Nodup →
      ((l.foldl (fun r q => dinsert r q.name (install_single_update env q)) r).lookup p.name)
        = some (install_single_update env p) := by
  induction l with
  | nil => intro r p hp; cases hp
  | cons q rest ih =>
    intro r p hp hnd
    simp only [List.map_cons, List.nodup_cons] at hnd
    rw [List.foldl_cons]
    cases List.mem_cons.mp hp with
    | inl he =>
      subst he
      have hfr : ∀ q' ∈ rest, ¬q'.name = p.name := by
        intro q' hq' habs
        exact hnd.1 (habs ▸ List.mem_map.mpr ⟨q', hq', rfl⟩)
      rw [seqfold_lookup_frame env rest _ p.name hfr]
      exact dinsert_lookup_self r p.name _
    | inr hm => exact ih _ p hm hnd.2

theorem seqfold_mem (env : Program → ProcOutcome) (l : List Program) :
    ∀ (r : List (String × UpdateResult)) (kv : String × UpdateResult),
      kv ∈ l.foldl (fun r q => dinsert r q.name (install_single_update env q)) r →
      kv ∈ r ∨ ∃ p ∈ l, kv = (p.name, install_single_update env p) := by
  induction l with
  | nil => intro r kv h; exact Or.inl h
  | cons q rest ih =>
    intro r kv h
    rw [List.foldl_cons] at h
    cases ih _ kv h with
    | inl hl =>
      cases dinsert_mem r q.name _ kv hl with
      | inl he => exact Or.inr ⟨q, List.mem_cons_self _ _, he⟩
      | inr hm => exact Or.inl hm
    | inr hr =>
      obtain ⟨p, hp, he⟩ := hr
      exact Or.inr ⟨p, List.mem_cons_of_mem _ hp, he⟩

theorem seqfold_keys_nodup (env : Program → ProcOutcome) (l : List Program) :
    ∀ (r : List (String × UpdateResult)), (r.map Prod.fst).Nodup →
      ((l.foldl (fun r q => dinsert r q.name (install_single_update env q)) r).map Prod.fst).Nodup := by
  induction l with
  | nil => intro r h; exact h
  | cons q rest ih =>
    intro r h
    rw [List.foldl_cons]
    exact ih _ (dinsert_keys_nodup r q.name _ h)

theorem namesDistinct_of_nodup (l : List Program)
    (h : (l.map Program.name).Nodup) : NamesDistinct l := by
  intro i j p q hi hj hij habs
  have hmi : (l.map Program.name).get? i = some p.name := by
    rw [List.get?_map, hi]
    rfl
  have hmj : (l.map Program.name).get? j = some q.name := by
    rw [List.get?_map, hj]
    rfl
  have hlen : i < (l.map Program.name).length := (List.get?_eq_some.mp hmi).1
  have heq : (l.map Program.name).get? i = (l.map Program.name).get? j := by
    rw [hmi, hmj, habs]
  exact hij (List.get?_inj hlen h heq)

/-- C6 (amended): for every input list whose attempted programs (those
with `update_available`) have pairwise-distinct names and every positive
concurrency limit, `install_updates` returns a map with exactly one
entry per attempted program — keyed by its name and holding exactly that
program's own `_install_single_update` outcome, which depends only on
that program's own external-process result — and no entry for any other
program.  Since each entry is fully determined by its own program, one
item that always fails cannot prevent any other item's entry. -/
theorem install_updates_exact (cfg : Config) (env : Program → ProcOutcome)
    (dur : Nat → Nat) (programs : List Program)
    (hk : 1 ≤ cfg.max_concurrent_updates)
    (hnd : ((programs.filter (fun p => p.update_available)).map Program.name).Nodup) :
    ∃ fuel r, install_updates cfg env dur fuel programs = some r ∧
      (∀ p ∈ programs, p.update_available = true →
          r.lookup p.name = some (install_single_update env p)) ∧
      (∀ kv ∈ r, ∃ p, p ∈ programs ∧ p.update_available = true ∧
          kv.1 = p.name ∧ kv.2 = install_single_update env p) ∧
      (r.map Prod.fst).Nodup := by
  have hDn : NamesDistinct (programs.filter (fun p => p.update_available)) :=
    namesDistinct_of_nodup _ hnd
  by_cases he : (programs.filter (fun p => p.update_available)).isEmpty = true
  · refine ⟨1, [], ?_, ?_, ?_, ?_⟩
    · unfold install_updates
      simp only [he, if_true]
    · intro p hp hav
      exfalso
      rw [List.isEmpty_iff] at he
      have hmem : p ∈ programs.filter (fun p => p.update_available) :=
        List.mem_filter.mpr ⟨hp, hav⟩
      rw [he] at hmem
      cases hmem
    · intro kv hkv
      cases hkv
    · simp
  · have he' : (programs.filter (fun p => p.update_available)).isEmpty = false :=
      Bool.eq_false_iff.mpr he
    by_cases hseq : cfg.update_all_at_once = true
    · refine ⟨1, (programs.filter (fun p => p.update_available)).foldl
        (fun r p => dinsert r p.name (install_single_update env p)) [], ?_, ?_, ?_, ?_⟩
      · unfold install_updates
        simp only [he', hseq, Bool.false_eq_true, if_false, if_true]
      · intro p hp hav
        exact seqfold_lookup_hit env _ [] p (List.mem_filter.mpr ⟨hp, hav⟩) hnd
      · intro kv hkv
        cases seqfold_mem env _ [] kv hkv with
        | inl hl => cases hl
        | inr hr =>
          obtain ⟨p, hp, he2⟩ := hr
          have hpf := List.mem_filter.mp hp
          exact ⟨p, hpf.1, hpf.2, by rw [he2], by rw [he2]⟩
      · exact seqfold_keys_nodup env _ [] (by simp)
    · have hseq' : cfg.update_all_at_once = false := Bool.eq_false_iff.mpr hseq
      obtain ⟨r, hr⟩ := runSched_term cfg.max_concurrent_updates
        (programs.filter (fun p => p.update_available)) env dur hk sched0
      have hS0 : SInv (programs.filter (fun p => p.update_available)) env sched0 := by
        refine ⟨by simp [sched0], by simp [sched0], by simp [sched0], ?_, by simp [sched0],
          by simp [sched0], by simp [sched0]⟩
        intro i hi
        simp [sched0] at hi
      obtain ⟨s', hrs, hS', hcond⟩ := runSched_final
        (SInv (programs.filter (fun p => p.update_available)) env)
        cfg.max_concurrent_updates (programs.filter (fun p => p.update_available)) env dur
        (fun s hP hc => stepFn_sinv cfg.max_concurrent_updates _ env dur hDn s hP)
        _ sched0 r hS0 hr
      have hterm : (programs.filter (fun p => p.update_available)).length ≤ s'.idx ∧
          s'.threads = [] := by
        unfold loopCond at hcond
        rw [Bool.or_eq_false_iff] at hcond
        obtain ⟨hc1, hc2⟩ := hcond
        have hlt := of_decide_eq_false hc1
        have hempty : s'.threads.isEmpty = true := by
          cases hE : s'.threads.isEmpty
          · rw [hE] at hc2
            simp at hc2
          · rfl
        exact ⟨by omega, List.isEmpty_iff.mp hempty⟩
      obtain ⟨hS1, hS2, hS3, hS4, hS5, hS6, hS7⟩ := hS'
      refine ⟨measureOf dur (programs.filter (fun p => p.update_available)).length sched0 + 1,
        r, ?_, ?_, ?_, ?_⟩
      · unfold install_updates install_concurrent_updates
        simp only [he', hseq', Bool.false_eq_true, if_false]
        exact hr
      · intro p hp hav
        have hpatd : p ∈ programs.filter (fun p => p.update_available) :=
          List.mem_filter.mpr ⟨hp, hav⟩
        obtain ⟨i, hi⟩ := List.mem_iff_get?.mp hpatd
        have hi_lt : i < (programs.filter (fun p => p.update_available)).length :=
          (List.get?_eq_some.mp hi).1
        cases hS4 i (by omega) with
        | inl hl =>
          rw [hterm.2] at hl
          cases hl
        | inr hrr =>
          rw [hrs]
          exact hrr p hi
      · intro kv hkv
        rw [hrs] at hkv
        obtain ⟨i, hilt, p, hip, hkv1, hkv2⟩ := hS6 kv hkv
        have hpf := List.mem_filter.mp (List.get?_mem hip)
        exact ⟨p, hpf.1, hpf.2, hkv1, hkv2⟩
      · rw [hrs]
        exact hS7

def dupProgs : List Program := [mkInstallProg "X", mkInstallProg "X"]

/-- C6 (counterexample): the result dict is keyed by program *name*, so
with two distinct attempted items sharing the name `"X"` the returned
map has a single entry, not one per attempted program — the claim fails
for input lists with duplicated names. -/
theorem install_duplicate_names_cex :
    (install_updates default_config soloEnv (fun _ => 0) 4 dupProgs).map List.length = some 1 ∧
    dupProgs.length = 2 ∧
    (dupProgs.filter (fun p => p.update_available)).length = 2 := by
  refine ⟨by decide, by decide, by decide⟩

theorem install_updates_exact_witness :
    ((wprogs.filter (fun p => p.update_available)).map Program.name).Nodup ∧
    (∃ fuel r, install_updates default_config instEnvW (fun _ => 0) fuel wprogs = some r ∧
      (∀ p ∈ wprogs, p.update_available = true →
          r.lookup p.name = some (install_single_update instEnvW p)) ∧
      (∀ kv ∈ r, ∃ p, p ∈ wprogs ∧ p.update_available = true ∧
          kv.1 = p.name ∧ kv.2 = install_single_update instEnvW p) ∧
      (r.map Prod.fst).Nodup) :=
  ⟨by decide,
   install_updates_exact default_config instEnvW (fun _ => 0) wprogs (by decide) (by decide)⟩

/-- Python `s.startswith(pre)`. -/
def pyStartsWith (s pre : String) : Bool :=
  pre.toList.isPrefixOf s.toList

/-- `re.split(r'\s{2,}', line)` of `_parse_winget_output`: maximal runs
of two or more whitespace characters are separators; single whitespace
characters stay inside a field (this is how the parser tolerates
column-width drift). -/
def splitWs2 (s : String) : List String :=
  let runs := s.toList.splitBy (fun a b => a.isWhitespace == b.isWhitespace)
  let fin := runs.foldl (fun (acc : List String × List Char) run =>
    match run with
    | [] => acc
    | c :: _ =>
      if c.isWhitespace && decide (2 ≤ run.length) then (acc.1 ++ [String.mk acc.2], [])
      else (acc.1, acc.2 ++ run)) ([], [])
  fin.1 ++ [String.mk fin.2]

/-- `_parse_winget_output`: skip everything before the header line
(recognized by containing `Name`, `Id` and `Version`), skip rule lines,
split each data line on ≥2-whitespace runs, and append a winget-sourced
`Program` for each new name. -/
def parse_winget_output (out : String) (progs0 : List Program) : List Program :=
  ((splitChar '\n' out).foldl (fun (st : Bool × List Program) rawLine =>
    let line := pyStrip rawLine
    if line = "" then st
    else if strContains line ("Name") && strContains line ("Id") && strContains line ("Version") then
      (true, st.2)
    else if !st.1 || pyStartsWith line ("-") then st
    else
      let parts := splitWs2 line
      if 3 ≤ parts.length then
        let name := pyStrip ((parts.get? 0).getD "")
        let package_id := pyStrip ((parts.get? 1).getD "")
        let version_str := pyStrip ((parts.get? 2).getD "Unknown")
        if name = "" || name = "Unknown" then st
        else if st.2.any (fun p => p.name == name) then st
        else (st.1, st.2 ++
          [{ name := name, version := version_str, package_id := package_id, source := "winget" }])
      else st) (false, progs0)).2

/-- The `current_program` dict accumulated by `_parse_registry_output`. -/
structure RegEntry where
  name : Option String := none
  version : Option String := none
  publisher : Option String := none
  install_location : Option String := none
deriving DecidableEq, Repr

/-- Python truthiness of the `current_program` dict: some key was set. -/
def regEntryNonempty (e : RegEntry) : Bool :=
  e.name.isSome || e.version.isSome || e.publisher.isSome || e.install_location.isSome

/-- The `skip_keywords` denylist of `_is_valid_program`. -/
def skip_keywords : List String :=
  ["hotfix", "security update", "kb", "update for", "redistributable", "runtime",
   "microsoft visual c++", "service pack", "language pack", ".net framework"]

/-- `_is_valid_program`: a registry entry is valid when its display name
is present, nonempty, and contains none of the system-component
keywords (substring match on the lowercased name). -/
def is_valid_program (e : RegEntry) : Bool :=
  match e.name with
  | none => false
  | some n => (n != "") && !(skip_keywords.any (fun kw => strContains (pyLower n) kw))

/-- `_add_registry_program`: append a registry-sourced record unless a
program with this exact name is already present. -/
def add_registry_program (e : RegEntry) (progs : List Program) : List Program :=
  let name := e.name.getD ""
  if progs.any (fun p => p.name == name) then progs
  else progs ++
    [{ name := name, version := e.version.getD "Unknown", publisher := e.publisher.getD "",
       install_location := e.install_location.getD "", source := "registry" }]

def wsSplitOnce (cs : List Char) : Option (List Char × List Char) :=
  let (t, r) := cs.span (fun c => !c.isWhitespace)
  match r with
  | [] => none
  | _ => some (t, r.dropWhile Char.isWhitespace)

/-- `re.split(r'\s+', line, 2)`: split on whitespace runs, at most two
splits, the third piece being the raw remainder. -/
def splitWsMax2 (s : String) : List String :=
  match wsSplitOnce s.toList with
  | none => [s]
  | some (t1, r1) =>
    match wsSplitOnce r1 with
    | none => [String.mk t1, String.mk r1]
    | some (t2, r2) => [String.mk t1, String.mk t2, String.mk r2]

/-- `_parse_registry_output`: group value lines under `HKEY_` key lines,
collect `DisplayName` / `DisplayVersion` / `Publisher` /
`InstallLocation`, and flush each completed, valid entry (the last one
included). -/
def parse_registry_output (out : String) (progs0 : List Program) : List Program :=
  if out = "" then progs0
  else
    let flush := fun (st : RegEntry × List Program) =>
      if regEntryNonempty st.1 && is_valid_program st.1 then add_registry_program st.1 st.2
      else st.2
    let fin := (splitChar '\n' out).foldl (fun (st : RegEntry × List Program) rawLine =>
      let line := pyStrip rawLine
      if line = "" then st
      else if pyStartsWith line ("HKEY_") then ({}, flush st)
      else if strContains line ("\t") || strContains line ("    ") then
        let parts := splitWsMax2 line
        if 3 ≤ parts.length then
          let value_name := (parts.get? 0).getD ""
          let value_data := (parts.get? 2).getD ""
          if value_name = "DisplayName" then ({ st.1 with name := some value_data }, st.2)
          else if value_name = "DisplayVersion" then ({ st.1 with version := some value_data }, st.2)
          else if value_name = "Publisher" then ({ st.1 with publisher := some value_data }, st.2)
          else if value_name = "InstallLocation" then
            ({ st.1 with install_location := some value_data }, st.2)
          else st
        else st
      else st) ({}, progs0)
    flush fin

/-- Python `str.title()` after `str.replace('-', ' ')`, as used on
chocolatey package names (ASCII letters). -/
def pyTitle (s : String) : String :=
  String.mk ((s.toList.foldl (fun (acc : List Char × Bool) c =>
    if c.isAlpha then ((if acc.2 then c.toLower else c.toUpper) :: acc.1, true)
    else (c :: acc.1, false)) ([], false)).1.reverse)

def pyReplaceChar (a b : Char) (s : String) : String :=
  String.mk (s.toList.map (fun c => if c = a then b else c))

/-- `_parse_chocolatey_output`: one `package-name version` pair per
line, skipping banner lines; the display name is the package id with
dashes as spaces, title-cased. -/
def parse_chocolatey_output (out : String) (progs0 : List Program) : List Program :=
  (splitChar '\n' out).foldl (fun progs rawLine =>
    let line := pyStrip rawLine
    if line = "" || pyStartsWith line ("Chocolatey") then progs
    else
      let parts := splitChar ' ' line
      if 2 ≤ parts.length then
        let name := (parts.get? 0).getD ""
        let version_str := (parts.get? 1).getD ""
        if progs.any (fun p => p.package_id == name) then progs
        else progs ++
          [{ name := pyTitle (pyReplaceChar '-' ' ' name), version := version_str,
             package_id := name, source := "chocolatey" }]
      else progs) progs0

/-- The external calls `ProgramDetector` can make during one scan:
`winget list`, the two `reg query` invocations, and `choco list`. -/
structure DetEnv where
  winget_list : ProcOutcome
  reg_query : ProcOutcome
  reg_query_wow : ProcOutcome
  choco_list : ProcOutcome

/-- `_scan_winget`: parse the output only on exit code 0; a nonzero
exit, timeout, missing executable or other exception leaves
`self.programs` unchanged (every handler is `pass`). -/
def scan_winget (env : DetEnv) (progs : List Program) : List Program :=
  match env.winget_list with
  | .done rc out _ => if rc == 0 then parse_winget_output out progs else progs
  | _ => progs

def regApply (outcome : ProcOutcome) (progs : List Program) : List Program :=
  match outcome with
  | .done rc out _ => if rc == 0 && out != "" then parse_registry_output out progs else progs
  | _ => progs

/-- `_scan_registry`: both registry paths, each a soft failure on any
error, parsed only on exit code 0 with nonempty output. -/
def scan_registry (env : DetEnv) (progs : List Program) : List Program :=
  regApply env.reg_query_wow (regApply env.reg_query progs)

/-- `_scan_chocolatey`: same soft-failure shape as `_scan_winget`. -/
def scan_chocolatey (env : DetEnv) (progs : List Program) : List Program :=
  match env.choco_list with
  | .done rc out _ => if rc == 0 then parse_chocolatey_output out progs else progs
  | _ => progs

/-- `ProgramDetector.scan_installed_programs`: reset `self.programs`,
run the three adapters in order, deduplicate. -/
def scan_installed_programs (env : DetEnv) : List Program :=
  deduplicate_programs (scan_chocolatey env (scan_registry env (scan_winget env [])))

/-- One call of the `scan_installed_programs` *method*, acting on the
detector's only piece of state, `self.programs` (there is no other
instance or module state in `program_detector.py`): returns the pair
(new `self.programs`, returned list). -/
def detector_scan (_state : List Program) (env : DetEnv) : List Program × List Program :=
  (scan_installed_programs env, scan_installed_programs env)

/-- A soft failure of one tool invocation: missing executable, timeout,
any exception, or a process that ran but exited nonzero. -/
def isSoftFail (o : ProcOutcome) : Bool :=
  match o with
  | .done rc _ _ => rc != 0
  | _ => true

/-- C7: when a tool invocation soft-fails (missing executable, timeout,
exception, or nonzero exit), its adapter leaves the program list
unchanged; the embedded adapters are total functions, matching the
source's blanket `except ...: pass` handlers that never re-raise.  In
particular, when every adapter's tool fails this way the whole
inventory scan returns the empty list rather than an error. -/
theorem scan_soft_failure (env : DetEnv)
    (h1 : isSoftFail env.winget_list = true)
    (h2 : isSoftFail env.reg_query = true)
    (h3 : isSoftFail env.reg_query_wow = true)
    (h4 : isSoftFail env.choco_list = true) :
    scan_installed_programs env = [] ∧
    (∀ progs, scan_winget env progs = progs) ∧
    (∀ progs, scan_registry env progs = progs) ∧
    (∀ progs, scan_chocolatey env progs = progs) := by
  have hw : ∀ progs, scan_winget env progs = progs := by
    intro progs
    unfold scan_winget
    cases ho : env.winget_list with
    | done rc out err =>
      rw [ho] at h1
      have hb : (rc == 0) = false := by
        have h1' : (rc != 0) = true := h1
        simp at h1' ⊢
        exact h1'
      show (if (rc == 0) = true then parse_winget_output out progs else progs) = progs
      rw [hb]
      simp
    | notFound => rfl
    | timedOut => rfl
    | exn m => rfl
  have hreg : ∀ (o : ProcOutcome), isSoftFail o = true → ∀ progs, regApply o progs = progs := by
    intro o ho progs
    unfold regApply
    cases hc : o with
    | done rc out err =>
      rw [hc] at ho
      have hb : (rc == 0) = false := by
        have ho' : (rc != 0) = true := ho
        simp at ho' ⊢
        exact ho'
      show (if (rc == 0 && out != "") = true then parse_registry_output out progs else progs) = progs
      rw [hb]
      simp
    | notFound => rfl
    | timedOut => rfl
    | exn m => rfl
  have hr : ∀ progs, scan_registry env progs = progs := by
    intro progs
    unfold scan_registry
    rw [hreg env.reg_query h2, hreg env.reg_query_wow h3]
  have hcc : ∀ progs, scan_chocolatey env progs = progs := by
    intro progs
    unfold scan_chocolatey
    cases ho : env.choco_list with
    | done rc out err =>
      rw [ho] at h4
      have hb : (rc == 0) = false := by
        have h4' : (rc != 0) = true := h4
        simp at h4' ⊢
        exact h4'
      show (if (rc == 0) = true then parse_chocolatey_output out progs else progs) = progs
      rw [hb]
      simp
    | notFound => rfl
    | timedOut => rfl
    | exn m => rfl
  refine ⟨?_, hw, hr, hcc⟩
  unfold scan_installed_programs
  rw [hw, hr, hcc]
  rfl

/-- An environment in which every external tool is missing, and one in
which only winget is present and lists one program. -/
def allToolsMissing : DetEnv :=
  { winget_list := .notFound, reg_query := .notFound, reg_query_wow := .notFound,
    choco_list := .notFound }

def wingetSampleOut : String := "Name  Id  Version\n---\nGit  Git.Git  2.44.0"

def wingetOkEnv : DetEnv := { allToolsMissing with winget_list := .done 0 wingetSampleOut "" }

theorem scan_soft_failure_witness :
    isSoftFail allToolsMissing.winget_list = true ∧
    scan_installed_programs allToolsMissing = [] ∧
    scan_winget allToolsMissing [sampleWin] = [sampleWin] := by
  have h := scan_soft_failure allToolsMissing (by decide) (by decide) (by decide) (by decide)
  exact ⟨by decide, h.1, h.2.1 [sampleWin]⟩

/-- C8 (counterexample): `program_detector.py` keeps no record of a
tool-not-found condition — `FileNotFoundError` is handled by a bare
`pass` and no flag exists anywhere in the process.  Concretely, a scan
in which every tool is missing returns `[]`, and a *later* scan in the
same process (state threaded through `detector_scan`) still invokes
winget: its outcome fully determines the second result, which here is
nonempty — so the missing-tool observation of the first call suppressed
nothing. -/
theorem no_tool_not_found_cache_cex :
    (detector_scan [] allToolsMissing).2 = [] ∧
    (detector_scan (detector_scan [] allToolsMissing).1 wingetOkEnv).2 =
      [{ name := "Git", version := "2.44.0", source := "winget", package_id := "Git.Git" }] := by
  constructor
  · decide
  · decide

/-- C8 (amended): nothing is cached across calls.  The detector's only
state is `self.programs`, which each scan resets, so the result of any
scan call depends only on that call's own tool outcomes — every call
re-invokes (and re-waits on) the external tools, a missing tool simply
re-raising `FileNotFoundError` into the same `pass` handler each time. -/
theorem detector_scan_stateless (state1 state2 : List Program) (env : DetEnv) :
    detector_scan state1 env = detector_scan state2 env ∧
    (detector_scan state1 env).2 = scan_installed_programs env :=
  ⟨rfl, rfl⟩
